import Mathlib

/-!
Verification of the crosstalk serial framing library against its specification.

The development shallowly embeds the C++ header `crosstalker.hpp`:

* the schema codec (`compute_size` / `serialize` / `deserialize` over scalars,
  strings, vectors, fixed arrays and reflectable records) as shape-directed
  functions over an untyped `Value` tree;
* the CRC-16 routine as a fold over byte lists;
* the `CrossTalker` receive/send engine as a state machine over a record of the
  circular-buffer fields (`buffer_`, `buffer_index_`, `buffer_size_`), with the
  serial port modelled as a list of pending inbound bytes.

Machine integers are modelled as `Nat`/`Int` with explicit truncations (`% 256`
for `uint8_t` stores, `% 65536` for `uint16_t` stores) where the C++ types
truncate.
-/

namespace Crosstalk

def nth (l : List Nat) (i : Nat) : Nat := l.getD i 0

def toLE : Nat → Nat → List Nat
  | 0, _ => []
  | s + 1, v => v % 256 :: toLE s (v / 256)

def fromLE : List Nat → Nat
  | [] => 0
  | b :: bs => b + 256 * fromLE bs

theorem toLE_length (s v : Nat) : (toLE s v).length = s := by
  induction s generalizing v with
  | zero => rfl
  | succ s ih => simp [toLE, ih]

theorem fromLE_toLE (s v : Nat) (h : v < 256 ^ s) : fromLE (toLE s v) = v := by
  induction s generalizing v with
  | zero => simp [toLE, fromLE]; omega
  | succ s ih =>
      simp only [toLE, fromLE]
      rw [ih]
      · omega
      · have hp : 256 ^ (s + 1) = 256 ^ s * 256 := by ring
        omega

def readU16 (data : List Nat) : Nat := nth data 0 + 256 * nth data 1

theorem readU16_toLE (v : Nat) (rest : List Nat) (h : v < 65536) :
    readU16 (toLE 2 v ++ rest) = v := by
  simp [toLE, readU16, nth]
  omega


inductive Shape where
  | scalar (s : Nat)
  | str
  | vec (elem : Shape)
  | arr (elem : Shape) (n : Nat)
  | record (fields : List Shape)

inductive Value where
  | scalar (v : Nat)
  | str (bytes : List Nat)
  | seq (elems : List Value)
  | record (fields : List Value)

def Shape.isScalar : Shape → Bool
  | .scalar _ => true
  | _ => false

def Shape.scalarSize : Shape → Nat
  | .scalar s => s
  | _ => 0

mutual

def Shape.wf : Shape → Bool
  | .scalar s => s == 1 || s == 2 || s == 4 || s == 8
  | .str => true
  | .vec e => Shape.wf e
  | .arr e _ => Shape.wf e
  | .record shs => Shape.wfList shs

def Shape.wfList : List Shape → Bool
  | [] => true
  | sh :: shs => Shape.wf sh && Shape.wfList shs

end

mutual

def computeSize : Shape → Value → Nat
  | .scalar s, _ => s
  | .str, .str bs => 2 + bs.length
  | .vec e, .seq es => if e.isScalar then 2 + es.length * e.scalarSize else 2 + computeSizeList e es
  | .arr e n, .seq es => if e.isScalar then 2 + n * e.scalarSize else 2 + computeSizeList e es
  | .record shs, .record fs => computeSizeFields shs fs
  | _, _ => 0

def computeSizeList : Shape → List Value → Nat
  | _, [] => 0
  | e, v :: vs => computeSize e v + computeSizeList e vs

def computeSizeFields : List Shape → List Value → Nat
  | sh :: shs, v :: vs => computeSize sh v + computeSizeFields shs vs
  | _, _ => 0

end

mutual

def serialize : Shape → Value → List Nat
  | .scalar s, .scalar v => toLE s v
  | .str, .str bs => toLE 2 (bs.length % 65536) ++ bs
  | .vec e, .seq es => toLE 2 (es.length % 65536) ++ serializeList e es
  | .arr e n, .seq es => toLE 2 (n % 65536) ++ serializeList e es
  | .record shs, .record fs => serializeFields shs fs
  | _, _ => []

def serializeList : Shape → List Value → List Nat
  | _, [] => []
  | e, v :: vs => serialize e v ++ serializeList e vs

def serializeFields : List Shape → List Value → List Nat
  | sh :: shs, v :: vs => serialize sh v ++ serializeFields shs vs
  | _, _ => []

end

mutual

def defaultValue : Shape → Value
  | .scalar _ => .scalar 0
  | .str => .str []
  | .vec _ => .seq []
  | .arr e n => .seq (List.replicate n (defaultValue e))
  | .record shs => .record (defaultValues shs)

def defaultValues : List Shape → List Value
  | [] => []
  | sh :: shs => defaultValue sh :: defaultValues shs

end

def Value.seqElems : Value → List Value
  | .seq es => es
  | _ => []

def Value.recordFields : Value → List Value
  | .record fs => fs
  | _ => []

mutual

def deserialize : Shape → List Nat → Int → Value → Value × Nat
  | .scalar s, data, length, cur =>
      if length < (s : Int) then (cur, 0) else (.scalar (fromLE (data.take s)), s)
  | .str, data, length, cur =>
      let sl : Nat × Nat := if length < 2 then (0, 0) else (readU16 data, 2)
      if length < ((sl.2 + sl.1 : Nat) : Int) then (cur, 0)
      else (.str ((data.drop sl.2).take sl.1), sl.2 + sl.1)
  | .vec e, data, length, cur =>
      let cn : Nat × Nat := if length < 2 then (0, 0) else (readU16 data, 2)
      let curEs := cur.seqElems
      let resized := curEs.take cn.1 ++ List.replicate (cn.1 - curEs.length) (defaultValue e)
      let r := deserializeList e resized (data.drop cn.2) (length - cn.2)
      (.seq r.1, cn.2 + r.2)
  | .arr e n, data, length, cur =>
      let cn : Nat × Nat := if length < 2 then (0, 0) else (readU16 data, 2)
      let curEs := cur.seqElems
      let k := min n cn.1
      let r := deserializeList e (curEs.take k) (data.drop cn.2) (length - cn.2)
      (.seq (r.1 ++ curEs.drop k), cn.2 + r.2)
  | .record shs, data, length, cur =>
      let r := deserializeFields shs cur.recordFields data length
      (.record r.1, r.2)
  termination_by sh _ _ _ => (sizeOf sh, 0)

def deserializeList : Shape → List Value → List Nat → Int → List Value × Nat
  | _, [], _, _ => ([], 0)
  | e, v :: vs, data, length =>
      let r := deserialize e data length v
      let r' := deserializeList e vs (data.drop r.2) (length - r.2)
      (r.1 :: r'.1, r.2 + r'.2)
  termination_by e vs _ _ => (sizeOf e, vs.length + 1)

def deserializeFields : List Shape → List Value → List Nat → Int → List Value × Nat
  | sh :: shs, v :: vs, data, length =>
      let r := deserialize sh data length v
      let r' := deserializeFields shs vs (data.drop r.2) (length - r.2)
      (r.1 :: r'.1, r.2 + r'.2)
  | _, vs, _, _ => (vs, 0)
  termination_by shs _ _ _ => (sizeOf shs, 0)

end

mutual

def hasShape : Shape → Value → Bool
  | .scalar s, .scalar v => decide (v < 256 ^ s)
  | .str, .str bs => bs.all (fun b => decide (b < 256))
  | .vec e, .seq es => hasShapeList e es
  | .arr e n, .seq es => es.length == n && hasShapeList e es
  | .record shs, .record fs => hasShapeFields shs fs
  | _, _ => false

def hasShapeList : Shape → List Value → Bool
  | _, [] => true
  | e, v :: vs => hasShape e v && hasShapeList e vs

def hasShapeFields : List Shape → List Value → Bool
  | [], [] => true
  | sh :: shs, v :: vs => hasShape sh v && hasShapeFields shs vs
  | _, _ => false

end

mutual

def wfLen : Value → Bool
  | .scalar _ => true
  | .str bs => decide (bs.length < 65536)
  | .seq es => decide (es.length < 65536) && wfLenList es
  | .record fs => wfLenList fs

def wfLenList : List Value → Bool
  | [] => true
  | v :: vs => wfLen v && wfLenList vs

end

theorem computeSizeList_scalar (s : Nat) (es : List Value) :
    computeSizeList (.scalar s) es = es.length * s := by
  induction es with
  | nil => simp [computeSizeList]
  | cons v vs ih => simp [computeSizeList, computeSize, ih]; ring

theorem computeSize_vec (e : Shape) (es : List Value) :
    computeSize (.vec e) (.seq es) = 2 + computeSizeList e es := by
  cases e <;> simp [computeSize, Shape.isScalar, Shape.scalarSize, computeSizeList_scalar]

theorem computeSize_arr (e : Shape) (n : Nat) (es : List Value) (h : es.length = n) :
    computeSize (.arr e n) (.seq es) = 2 + computeSizeList e es := by
  cases e <;> simp [computeSize, Shape.isScalar, Shape.scalarSize, computeSizeList_scalar, h]

theorem sizeOf_value_pos (v : Value) : 1 ≤ sizeOf v := by
  cases v <;> simp_arith

theorem sizeOf_mem_le {es : List Value} {v : Value} (h : v ∈ es) (n : Nat)
    (hn : sizeOf es ≤ n + 1) : sizeOf v ≤ n := by
  have := List.sizeOf_lt_of_mem h
  omega


theorem sizeOf_seq (es : List Value) : sizeOf (Value.seq es) = 1 + sizeOf es := by
  simp

theorem sizeOf_record (fs : List Value) : sizeOf (Value.record fs) = 1 + sizeOf fs := by
  simp

theorem serialize_length_fuel (fuel : Nat) : ∀ (sh : Shape) (v : Value), sizeOf v ≤ fuel →
    hasShape sh v = true → (serialize sh v).length = computeSize sh v := by
  induction fuel with
  | zero =>
      intro sh v hv _
      have := sizeOf_value_pos v
      omega
  | succ fuel ih =>
      intro sh v hv hsh
      have hl : ∀ (e : Shape) (l : List Value), (∀ x ∈ l, sizeOf x ≤ fuel) →
          hasShapeList e l = true → (serializeList e l).length = computeSizeList e l := by
        intro e l
        induction l with
        | nil => intro _ _; simp [serializeList, computeSizeList]
        | cons x xs ihx =>
            intro hsz hshl
            simp only [hasShapeList, Bool.and_eq_true] at hshl
            simp only [serializeList, computeSizeList, List.length_append]
            rw [ih e x (hsz x (by simp)) hshl.1, ihx (fun y hy => hsz y (by simp [hy])) hshl.2]
      have hf : ∀ (shs : List Shape) (l : List Value), (∀ x ∈ l, sizeOf x ≤ fuel) →
          hasShapeFields shs l = true →
          (serializeFields shs l).length = computeSizeFields shs l := by
        intro shs
        induction shs with
        | nil =>
            intro l _ hshl
            cases l with
            | nil => simp [serializeFields, computeSizeFields]
            | cons x xs => simp [hasShapeFields] at hshl
        | cons s ss ihs =>
            intro l hsz hshl
            cases l with
            | nil => simp [hasShapeFields] at hshl
            | cons x xs =>
                simp only [hasShapeFields, Bool.and_eq_true] at hshl
                simp only [serializeFields, computeSizeFields, List.length_append]
                rw [ih s x (hsz x (by simp)) hshl.1, ihs xs (fun y hy => hsz y (by simp [hy])) hshl.2]
      cases sh with
      | scalar s =>
          cases v <;> simp [hasShape] at hsh
          simp [serialize, computeSize, toLE_length]
      | str =>
          cases v with
          | scalar w => simp [hasShape] at hsh
          | str bs => simp [serialize, computeSize, toLE_length]
          | seq es => simp [hasShape] at hsh
          | record fs => simp [hasShape] at hsh
      | vec e =>
          cases v <;> simp [hasShape] at hsh
          case seq es =>
          have hes : ∀ x ∈ es, sizeOf x ≤ fuel := by
            intro x hx
            have h1 := List.sizeOf_lt_of_mem hx
            have h2 := sizeOf_seq es
            omega
          simp [serialize, computeSize_vec, toLE_length, hl e es hes hsh]
      | arr e n =>
          cases v <;> simp [hasShape] at hsh
          case seq es =>
          have hes : ∀ x ∈ es, sizeOf x ≤ fuel := by
            intro x hx
            have h1 := List.sizeOf_lt_of_mem hx
            have h2 := sizeOf_seq es
            omega
          rw [computeSize_arr e n es hsh.1]
          simp [serialize, toLE_length, hl e es hes hsh.2]
      | record shs =>
          cases v <;> simp [hasShape] at hsh
          case record fs =>
          have hfs : ∀ x ∈ fs, sizeOf x ≤ fuel := by
            intro x hx
            have h1 := List.sizeOf_lt_of_mem hx
            have h2 := sizeOf_record fs
            omega
          simp [serialize, computeSize, hf shs fs hfs hsh]

theorem serialize_length (sh : Shape) (v : Value) (h : hasShape sh v = true) :
    (serialize sh v).length = computeSize sh v :=
  serialize_length_fuel (sizeOf v) sh v (Nat.le_refl _) h


theorem hasShapeList_append (e : Shape) (a b : List Value) :
    hasShapeList e (a ++ b) = (hasShapeList e a && hasShapeList e b) := by
  induction a with
  | nil => simp [hasShapeList]
  | cons x xs ih => simp [hasShapeList, ih, Bool.and_assoc]

theorem hasShapeList_take (e : Shape) (l : List Value) (k : Nat)
    (h : hasShapeList e l = true) : hasShapeList e (l.take k) = true := by
  induction l generalizing k with
  | nil => simp [hasShapeList]
  | cons x xs ih =>
      cases k with
      | zero => simp [hasShapeList]
      | succ k =>
          simp only [hasShapeList, Bool.and_eq_true] at h
          simp [List.take_succ_cons, hasShapeList, h.1, ih k h.2]

theorem sizeOf_shape_pos (sh : Shape) : 1 ≤ sizeOf sh := by
  cases sh <;> simp_arith

theorem hasShape_default_fuel (fuel : Nat) : ∀ (sh : Shape), sizeOf sh ≤ fuel →
    hasShape sh (defaultValue sh) = true := by
  induction fuel with
  | zero =>
      intro sh h
      have := sizeOf_shape_pos sh
      omega
  | succ fuel ih =>
      intro sh hsz
      cases sh with
      | scalar s =>
          simp [defaultValue, hasShape, Nat.pos_pow_of_pos]
      | str => simp [defaultValue, hasShape]
      | vec e => simp [defaultValue, hasShape, hasShapeList]
      | arr e n =>
          have he : hasShape e (defaultValue e) = true := by
            apply ih
            have : sizeOf (Shape.arr e n) = 1 + sizeOf e + sizeOf n := by simp
            omega
          have : ∀ k, hasShapeList e (List.replicate k (defaultValue e)) = true := by
            intro k
            induction k with
            | zero => simp [hasShapeList]
            | succ k ihk => simp [List.replicate_succ, hasShapeList, he, ihk]
          simp [defaultValue, hasShape, this]
      | record shs =>
          have hr : sizeOf (Shape.record shs) = 1 + sizeOf shs := by simp
          have : ∀ (l : List Shape), sizeOf l ≤ fuel →
              hasShapeFields l (defaultValues l) = true := by
            intro l
            induction l with
            | nil => intro _; simp [defaultValues, hasShapeFields]
            | cons x xs ihl =>
                intro hls
                have hx : sizeOf x ≤ fuel := by
                  have : sizeOf (x :: xs) = 1 + sizeOf x + sizeOf xs := by simp
                  have := sizeOf_shape_pos x
                  omega
                have hxs : sizeOf xs ≤ fuel := by
                  have : sizeOf (x :: xs) = 1 + sizeOf x + sizeOf xs := by simp
                  have := sizeOf_shape_pos x
                  omega
                simp [defaultValues, hasShapeFields, ih x hx, ihl hxs]
          simp only [defaultValue, hasShape]
          exact this shs (by omega)


theorem hasShape_default (sh : Shape) : hasShape sh (defaultValue sh) = true :=
  hasShape_default_fuel (sizeOf sh) sh (Nat.le_refl _)

theorem hasShapeList_replicate (e : Shape) (k : Nat) (d : Value)
    (h : hasShape e d = true) : hasShapeList e (List.replicate k d) = true := by
  induction k with
  | zero => simp [hasShapeList]
  | succ k ih => simp [List.replicate_succ, hasShapeList, h, ih]


theorem roundtrip_fuel (fuel : Nat) : ∀ (sh : Shape) (v cur : Value) (rest : List Nat) (l : Int),
    sizeOf v ≤ fuel → hasShape sh v = true → wfLen v = true → hasShape sh cur = true →
    (computeSize sh v : Int) ≤ l →
    deserialize sh (serialize sh v ++ rest) l cur = (v, computeSize sh v) := by
  induction fuel with
  | zero =>
      intro sh v _ _ _ hv _
      have := sizeOf_value_pos v
      omega
  | succ fuel ih =>
      intro sh v cur rest l hsz hsh hwf hcur hl
      have hlist : ∀ (e : Shape) (xs todo : List Value) (rest : List Nat) (l : Int),
          (∀ x ∈ xs, sizeOf x ≤ fuel) → hasShapeList e xs = true → wfLenList xs = true →
          hasShapeList e todo = true → todo.length = xs.length →
          (computeSizeList e xs : Int) ≤ l →
          deserializeList e todo (serializeList e xs ++ rest) l = (xs, computeSizeList e xs) := by
        intro e xs
        induction xs with
        | nil =>
            intro todo rest l _ _ _ _ hlen _
            have : todo = [] := List.eq_nil_of_length_eq_zero hlen
            subst this
            simp [deserializeList, serializeList, computeSizeList]
        | cons x xs ihx =>
            intro todo rest l hszl hshl hwfl htodo hlen hll
            cases todo with
            | nil => simp at hlen
            | cons t ts =>
                simp only [hasShapeList, Bool.and_eq_true] at hshl htodo
                simp only [wfLenList, Bool.and_eq_true] at hwfl
                simp only [computeSizeList] at hll ⊢
                have hx := ih e x t (serializeList e xs ++ rest) l
                  (hszl x (by simp)) hshl.1 hwfl.1 htodo.1 (by omega)
                simp only [deserializeList, serializeList, List.append_assoc]
                rw [hx]
                have hdrop : (serialize e x ++ (serializeList e xs ++ rest)).drop
                    (computeSize e x) = serializeList e xs ++ rest := by
                  rw [List.drop_left' (serialize_length e x hshl.1)]
                simp only [hdrop]
                rw [ihx ts rest (l - computeSize e x)
                  (fun y hy => hszl y (by simp [hy])) hshl.2 hwfl.2 htodo.2
                  (by simpa using hlen) (by omega)]
      have hfields : ∀ (shs : List Shape) (xs todo : List Value) (rest : List Nat) (l : Int),
          (∀ x ∈ xs, sizeOf x ≤ fuel) → hasShapeFields shs xs = true → wfLenList xs = true →
          hasShapeFields shs todo = true →
          (computeSizeFields shs xs : Int) ≤ l →
          deserializeFields shs todo (serializeFields shs xs ++ rest) l
            = (xs, computeSizeFields shs xs) := by
        intro shs
        induction shs with
        | nil =>
            intro xs todo rest l _ hshl _ htodo _
            cases xs with
            | cons a as => simp [hasShapeFields] at hshl
            | nil =>
                cases todo with
                | cons b bs => simp [hasShapeFields] at htodo
                | nil => simp [deserializeFields, serializeFields, computeSizeFields]
        | cons s ss ihs =>
            intro xs todo rest l hszl hshl hwfl htodo hll
            cases xs with
            | nil => simp [hasShapeFields] at hshl
            | cons x xs =>
                cases todo with
                | nil => simp [hasShapeFields] at htodo
                | cons t ts =>
                    simp only [hasShapeFields, Bool.and_eq_true] at hshl htodo
                    simp only [wfLenList, Bool.and_eq_true] at hwfl
                    simp only [computeSizeFields] at hll ⊢
                    have hx := ih s x t (serializeFields ss xs ++ rest) l
                      (hszl x (by simp)) hshl.1 hwfl.1 htodo.1 (by omega)
                    simp only [deserializeFields, serializeFields, List.append_assoc]
                    rw [hx]
                    have hdrop : (serialize s x ++ (serializeFields ss xs ++ rest)).drop
                        (computeSize s x) = serializeFields ss xs ++ rest := by
                      rw [List.drop_left' (serialize_length s x hshl.1)]
                    simp only [hdrop]
                    rw [ihs xs ts rest (l - computeSize s x)
                      (fun y hy => hszl y (by simp [hy])) hshl.2 hwfl.2 htodo.2
                      (by omega)]
      cases sh with
      | scalar s =>
          cases v with
          | str bs => simp [hasShape] at hsh
          | seq es => simp [hasShape] at hsh
          | record fs => simp [hasShape] at hsh
          | scalar n =>
              simp only [hasShape, decide_eq_true_eq] at hsh
              simp only [computeSize] at hl ⊢
              simp only [serialize, deserialize]
              rw [if_neg (by omega)]
              rw [List.take_left' (toLE_length s n), fromLE_toLE s n hsh]
      | str =>
          cases v with
          | scalar n => simp [hasShape] at hsh
          | seq es => simp [hasShape] at hsh
          | record fs => simp [hasShape] at hsh
          | str bs =>
              simp only [wfLen, decide_eq_true_eq] at hwf
              simp only [computeSize] at hl ⊢
              have hlen2 : ¬ l < (2 : Int) := by omega
              simp only [serialize, Nat.mod_eq_of_lt hwf, deserialize, List.append_assoc]
              rw [if_neg hlen2]
              dsimp only
              rw [readU16_toLE bs.length (bs ++ rest) hwf]
              rw [if_neg (by push_cast at hl ⊢; omega)]
              rw [List.drop_left' (toLE_length 2 bs.length), List.take_left' rfl]
      | vec e =>
          cases v with
          | scalar n => simp [hasShape] at hsh
          | str bs => simp [hasShape] at hsh
          | record fs => simp [hasShape] at hsh
          | seq es =>
              cases cur with
              | scalar n => simp [hasShape] at hcur
              | str bs => simp [hasShape] at hcur
              | record fs => simp [hasShape] at hcur
              | seq cs =>
                  simp only [hasShape] at hsh hcur
                  simp only [wfLen, Bool.and_eq_true, decide_eq_true_eq] at hwf
                  have hes : ∀ x ∈ es, sizeOf x ≤ fuel := by
                    intro x hx
                    have h1 := List.sizeOf_lt_of_mem hx
                    have h2 := sizeOf_seq es
                    omega
                  rw [computeSize_vec] at hl ⊢
                  have hlen2 : ¬ l < (2 : Int) := by omega
                  simp only [serialize, Nat.mod_eq_of_lt hwf.1, deserialize,
                    List.append_assoc]
                  rw [if_neg hlen2]
                  dsimp only
                  rw [readU16_toLE es.length (serializeList e es ++ rest) hwf.1]
                  simp only [Value.seqElems]
                  rw [List.drop_left' (toLE_length 2 es.length)]
                  rw [hlist e es
                    (cs.take es.length ++ List.replicate (es.length - cs.length) (defaultValue e))
                    rest (l - ((2 : Nat) : Int)) hes hsh hwf.2
                    (by
                      rw [hasShapeList_append]
                      simp [hasShapeList_take e cs es.length hcur,
                        hasShapeList_replicate e _ _ (hasShape_default e)])
                    (by simp; omega)
                    (by push_cast at hl ⊢; omega)]
      | arr e n =>
          cases v with
          | scalar w => simp [hasShape] at hsh
          | str bs => simp [hasShape] at hsh
          | record fs => simp [hasShape] at hsh
          | seq es =>
              cases cur with
              | scalar w => simp [hasShape] at hcur
              | str bs => simp [hasShape] at hcur
              | record fs => simp [hasShape] at hcur
              | seq cs =>
                  simp only [hasShape, Bool.and_eq_true, beq_iff_eq] at hsh hcur
                  simp only [wfLen, Bool.and_eq_true, decide_eq_true_eq] at hwf
                  have hes : ∀ x ∈ es, sizeOf x ≤ fuel := by
                    intro x hx
                    have h1 := List.sizeOf_lt_of_mem hx
                    have h2 := sizeOf_seq es
                    omega
                  have hn : n < 65536 := hsh.1 ▸ hwf.1
                  rw [computeSize_arr e n es hsh.1] at hl ⊢
                  have hlen2 : ¬ l < (2 : Int) := by omega
                  simp only [serialize, Nat.mod_eq_of_lt hn, deserialize, List.append_assoc]
                  rw [if_neg hlen2]
                  dsimp only
                  rw [readU16_toLE n (serializeList e es ++ rest) hn]
                  simp only [Value.seqElems, min_self]
                  have htake : cs.take n = cs := by
                    rw [← hcur.1]
                    exact List.take_length cs
                  have hdrop : cs.drop n = [] := by
                    rw [← hcur.1]
                    exact List.drop_length cs
                  rw [htake, hdrop, List.drop_left' (toLE_length 2 n)]
                  rw [hlist e es cs rest (l - ((2 : Nat) : Int)) hes hsh.2 hwf.2 hcur.2
                    (by rw [hcur.1, hsh.1]) (by push_cast at hl ⊢; omega)]
                  simp
      | record shs =>
          cases v with
          | scalar n => simp [hasShape] at hsh
          | str bs => simp [hasShape] at hsh
          | seq es => simp [hasShape] at hsh
          | record fs =>
              cases cur with
              | scalar n => simp [hasShape] at hcur
              | str bs => simp [hasShape] at hcur
              | seq es => simp [hasShape] at hcur
              | record cfs =>
                  simp only [hasShape] at hsh hcur
                  simp only [wfLen] at hwf
                  have hfs : ∀ x ∈ fs, sizeOf x ≤ fuel := by
                    intro x hx
                    have h1 := List.sizeOf_lt_of_mem hx
                    have h2 := sizeOf_record fs
                    omega
                  simp only [computeSize] at hl ⊢
                  simp only [serialize, deserialize, Value.recordFields]
                  rw [hfields shs fs cfs rest l hfs hsh hwf hcur hl]


theorem serialize_roundtrip (sh : Shape) (v cur : Value) (hsh : hasShape sh v = true)
    (hwf : wfLen v = true) (hcur : hasShape sh cur = true) :
    deserialize sh (serialize sh v) ((computeSize sh v : Int)) cur = (v, computeSize sh v) := by
  have h := roundtrip_fuel (sizeOf v) sh v cur [] ((computeSize sh v : Int))
    (Nat.le_refl _) hsh hwf hcur (le_refl _)
  rwa [List.append_nil] at h


/-! ## CRC-16 (crosstalker.hpp, `crosstalk::util::compute_crc16`)

The source routine, with the C integer promotions made explicit: the `uint8_t`
assignments truncate with `% 256` and the final `uint16_t` assignment truncates
with `% 65536`. -/

def crc16Step (crc b : Nat) : Nat :=
  let x : Nat := ((crc >>> 8) ^^^ b) % 256
  let x : Nat := (x ^^^ (x >>> 4)) % 256
  ((crc <<< 8) ^^^ (x <<< 12) ^^^ (x <<< 5) ^^^ x) % 65536

def compute_crc16 (data : List Nat) : Nat := data.foldl crc16Step 0xFFFF

/-- Fold written exactly as spec section 4.2 states it: `x ← ((crc >> 8) ^ b) & 0xFF`,
`x ← x ^ (x >> 4)` (no mask on this line in the spec), and
`crc ← ((crc << 8) ^ (x << 12) ^ (x << 5) ^ x) & 0xFFFF`. -/
def crc16SpecStep (crc b : Nat) : Nat :=
  let x : Nat := ((crc >>> 8) ^^^ b) % 256
  let x : Nat := x ^^^ (x >>> 4)
  ((crc <<< 8) ^^^ (x <<< 12) ^^^ (x <<< 5) ^^^ x) % 65536

def compute_crc16_spec (data : List Nat) : Nat := data.foldl crc16SpecStep 0xFFFF

theorem xor_lt_256 {a b : Nat} (ha : a < 256) (hb : b < 256) : a ^^^ b < 256 := by
  have : a ^^^ b < 2 ^ 8 := Nat.xor_lt_two_pow (n := 8) ha hb
  simpa using this

theorem crc16Step_eq_spec (crc b : Nat) : crc16Step crc b = crc16SpecStep crc b := by
  unfold crc16Step crc16SpecStep
  have h1 : ((crc >>> 8) ^^^ b) % 256 < 256 := Nat.mod_lt _ (by norm_num)
  have h2 : (((crc >>> 8) ^^^ b) % 256) >>> 4 < 256 := by
    rw [Nat.shiftRight_eq_div_pow]
    exact Nat.lt_of_le_of_lt (Nat.div_le_self _ _) h1
  simp only []
  rw [Nat.mod_eq_of_lt (xor_lt_256 h1 h2)]

theorem compute_crc16_eq_spec (data : List Nat) : compute_crc16 data = compute_crc16_spec data := by
  have h : ∀ (l : List Nat) (c : Nat), l.foldl crc16Step c = l.foldl crc16SpecStep c := by
    intro l
    induction l with
    | nil => intro c; rfl
    | cons b bs ih => intro c; simp [List.foldl_cons, crc16Step_eq_spec, ih]
  exact h data 0xFFFF


/-! ## CrossTalker receive/send engine

State machine embedding of the `CrossTalker<BUFFER_SIZE, SERIALIZATION_BUFFER_SIZE>`
class. The ring storage `buffer_` is a total function from raw index to the
stored byte (`uint8_t` stores truncate with `% 256`); `buffer_index_` and
`buffer_size_` are C++ `int`s, modelled as `Int`. The template parameter
`BUFFER_SIZE` is passed explicitly as `C` to every operation; the serial port
is modelled as the list of bytes it still has pending (its `available()` is the
list length and its `read` hands over exactly the requested prefix, as the
repository's test `SerialAbstraction` does). -/

inductive ReadResult where
  | Success
  | NoObjectAvailable
  | NotEnoughData
  | CrcError
  | ObjectIdMismatch
  | ObjectSizeMismatch
deriving DecidableEq

inductive WriteResult where
  | Success
  | ObjectTooLarge
  | WriteError
deriving DecidableEq

structure CTState where
  buffer : Int → Nat
  buffer_index : Int
  buffer_size : Int

/-- Single conditional wrap `if (i >= BUFFER_SIZE) i -= BUFFER_SIZE;` used
throughout the source. -/
def wrap1 (C x : Int) : Int := if x ≥ C then x - C else x

/-- Model of `_markRead(count)`: decrease `buffer_size_`, advance and wrap
`buffer_index_`, and reset both to zero when the size reaches (or would pass)
zero. -/
def markRead (C : Int) (st : CTState) (count : Int) : CTState :=
  let size := st.buffer_size - count
  let idx := wrap1 C (st.buffer_index + count)
  if size ≤ 0 then { buffer := st.buffer, buffer_index := 0, buffer_size := 0 }
  else { buffer := st.buffer, buffer_index := idx, buffer_size := size }

/-- Contiguous store of a byte run into the ring array starting at `index`
(one `memcpy` into `&buffer_[index]`; each `uint8_t` store truncates). -/
def writeRun (buf : Int → Nat) (index : Int) : List Nat → (Int → Nat)
  | [] => buf
  | b :: rest => writeRun (fun j => if j = index then b % 256 else buf j) (index + 1) rest

/-! Model of `_processSerialData(max_to_read)` (`processSerialDataLoop` below):
repeatedly pull a contiguous run from the port into the free region of the
ring, clamped by the remaining array space `C - index` and by `max_to_read`;
drop the oldest bytes via `_markRead` whenever `buffer_size_` exceeds `C`.
The iteration locals `index` and `count` and the iteration body are split out
as `psIndex`, `psCount` and `psStep`. The `count ≤ 0` early return in
`processSerialDataLoop` has no counterpart in the source (whose loop would
spin if the port kept reporting data it never delivers); it is unreachable for
`maxToRead > 0` because the chosen `count` is then positive whenever bytes are
pending. -/
/-- The write position `index` of one `_processSerialData` loop iteration:
`buffer_index_ + buffer_size_`, wrapped once. -/
def psIndex (C : Int) (st : CTState) : Int := wrap1 C (st.buffer_index + st.buffer_size)

/-- The `count` of one loop iteration: `min(available, BUFFER_SIZE - index)`
further clamped by `max_to_read`. -/
def psCount (C : Int) (st : CTState) (avail maxToRead : Int) : Int :=
  min (min avail (C - psIndex C st)) maxToRead

/-- The state after one loop iteration body: the contiguous run is stored at
`index`, `buffer_size_` grows by `count`, and when it exceeds `C` the oldest
bytes are dropped with `_markRead(buffer_size_ - BUFFER_SIZE)`. -/
def psStep (C : Int) (st : CTState) (pending : List Nat) (maxToRead : Int) : CTState :=
  let count := psCount C st (pending.length : Int) maxToRead
  let st1 : CTState := { buffer := writeRun st.buffer (psIndex C st) (pending.take count.toNat),
                         buffer_index := st.buffer_index,
                         buffer_size := st.buffer_size + count }
  if st1.buffer_size > C then markRead C st1 (st1.buffer_size - C) else st1

def processSerialDataLoop (C : Int) (st : CTState) (pending : List Nat) (maxToRead : Int) :
    CTState × List Nat :=
  if pending.length = 0 then (st, pending)
  else if maxToRead = 0 then (st, pending)
  else if psCount C st (pending.length : Int) maxToRead ≤ 0 then (st, pending)
  else
    processSerialDataLoop C (psStep C st pending maxToRead)
      (pending.drop (psCount C st (pending.length : Int) maxToRead).toNat)
      (maxToRead - psCount C st (pending.length : Int) maxToRead)
termination_by pending.length
decreasing_by
  simp only [List.length_drop]
  omega

/-- Model of `_processSerialDataUntil(index)`. -/
def processSerialDataUntil (C : Int) (st : CTState) (pending : List Nat) (index : Int) :
    CTState × List Nat :=
  let m1 := index - st.buffer_index
  let m2 := if m1 < 0 then m1 + C else m1
  processSerialDataLoop C st pending (m2 + (C - st.buffer_size))

/-- Model of the public `processSerialData(overwrite_buffer)`. -/
def processSerialData (C : Int) (st : CTState) (pending : List Nat) (overwrite : Bool) :
    CTState × List Nat :=
  if overwrite then
    processSerialDataLoop C st pending (if st.buffer_size = 0 then C else C - 1)
  else if st.buffer_size < C then processSerialDataLoop C st pending (C - st.buffer_size)
  else (st, pending)

/-- Body iterations of the do-while loop in `_findNextObjectIndex`: each
iteration inspects `buffer_[index]`, returns `obj_index` when a pending `0x02`
is followed by `0x42`, updates the pending-marker state, then increments and
wraps `index`. `steps` counts the body executions left before `index` reaches
the wrapped `end`. -/
def findLoop (C : Int) (buf : Int → Nat) : Nat → Int → Int → Bool → Int
  | 0, _, _, _ => -1
  | steps + 1, index, objIndex, haveFirst =>
    if haveFirst = true ∧ buf index = 66 then objIndex
    else
      findLoop C buf steps (wrap1 C (index + 1))
        (if buf index = 2 then index else objIndex) (decide (buf index = 2))

/-- Number of body executions of the do-while in `_findNextObjectIndex(start, end)`:
the body runs at least once and then until the incremented, wrapped index equals
the wrapped `end`, i.e. `(end − start) mod C` times, with `0` standing for a full
pass of `C` iterations. -/
def findSteps (C : Int) (start e : Int) : Nat :=
  let e2 := if e ≥ C then e - C else e
  let d := (e2 - start) % C
  if d = 0 then C.toNat else d.toNat

/-- Model of `_findNextObjectIndex(start, end)`. -/
def findNextObjectIndex (C : Int) (buf : Int → Nat) (start e : Int) : Int :=
  findLoop C buf (findSteps C start e) start (-1) false

/-- Model of `available()`. -/
def available (C : Int) (st : CTState) : Int :=
  if st.buffer_size = 0 then 0
  else
    let objIndex := findNextObjectIndex C st.buffer st.buffer_index
      (st.buffer_index + st.buffer_size)
    if objIndex = -1 then
      let last := wrap1 C (st.buffer_index + st.buffer_size - 1)
      if st.buffer last = 2 then st.buffer_size - 1 else st.buffer_size
    else
      let a := objIndex - st.buffer_index
      if a < 0 then a + C else a

/-- Model of `hasObject()`. -/
def hasObject (C : Int) (st : CTState) : Bool :=
  if st.buffer_size < 4 ∨ st.buffer st.buffer_index ≠ 2 then false
  else decide (st.buffer (wrap1 C (st.buffer_index + 1)) = 66)

/-- Reinterpretation of a `uint16_t` bit pattern as `int16_t` (the `memcpy` into
`int16_t` at the end of `getObjectId`). -/
def toInt16 (v : Nat) : Int :=
  if v % 65536 < 32768 then (v % 65536 : Int) else (v % 65536 : Int) - 65536

/-- Model of `getObjectId()`: reads the two little-endian ID bytes at logical
offsets 2 and 3, handling the raw-array wrap exactly as the source does. -/
def getObjectId (C : Int) (st : CTState) : Int :=
  if st.buffer_size < 4 ∨ hasObject C st = false then -1
  else
    let index := wrap1 C (st.buffer_index + 2)
    toInt16 (if index = C - 1 then st.buffer index + 256 * st.buffer 0
             else st.buffer index + 256 * st.buffer (index + 1))

/-- Model of `_readObjectSize(start_index)`: the two little-endian length bytes
at offsets 4 and 5 from `start_index`. -/
def readObjectSize (C : Int) (st : CTState) (startIndex : Int) : Nat :=
  let index := wrap1 C (startIndex + 4)
  if index = C - 1 then st.buffer index + 256 * st.buffer 0
  else st.buffer index + 256 * st.buffer (index + 1)

/-- Bytes handed to the caller by the two `memcpy`s in `read()`. -/
def readData (C : Int) (st : CTState) (len : Int) : List Nat :=
  let start := st.buffer_index
  let e := start + len
  if e > C then
    (List.range (C - start).toNat).map (fun i => st.buffer (start + i)) ++
      (List.range (e - C).toNat).map (fun i => st.buffer (i : Int))
  else (List.range len.toNat).map (fun i => st.buffer (start + i))

/-- Model of `read(data, length)`: clamp to `available()`, copy, `_markRead`. -/
def readOp (C : Int) (st : CTState) (length : Nat) : List Nat × CTState :=
  let len : Int := if (length : Int) > available C st then available C st else (length : Int)
  if len = 0 then ([], st)
  else (readData C st len, markRead C st len)

/-- Model of `skip(length)`: one non-overwrite ingestion pass, clamp to
`available()`, `_markRead`. -/
def skipOp (C : Int) (st : CTState) (pending : List Nat) (length : Nat) :
    Int × CTState × List Nat :=
  let r := processSerialData C st pending false
  let av := available C r.1
  let len : Int := if (length : Int) > av then av else (length : Int)
  (len, markRead C r.1 len, r.2)

/-- Model of `clearBuffer()`. -/
def clearBuffer (st : CTState) : CTState :=
  { buffer := st.buffer, buffer_index := 0, buffer_size := 0 }

/-- Contiguous slice of `len` bytes of the raw array starting at `start`
(a single `memcpy` source region, no wrapping). -/
def frameSlice (buf : Int → Nat) (start : Int) (len : Nat) : List Nat :=
  (List.range len).map (fun i => buf (start + (i : Int)))

/-- The frame bytes `readObject` works on: the contiguous ring slice at
`buffer_index_` when the frame does not straddle the array end, otherwise the
concatenation the two `memcpy`s build in the scratch buffer `obj_buffer_`. -/
def readFrameData (C : Int) (st : CTState) (L : Nat) : List Nat :=
  if st.buffer_index + (L : Int) + 8 > C then
    frameSlice st.buffer st.buffer_index (C - st.buffer_index).toNat ++
      frameSlice st.buffer 0 (st.buffer_index + 8 + (L : Int) - C).toNat
  else frameSlice st.buffer st.buffer_index (8 + L)

/-- Scratch-buffer (`obj_buffer_`) indices written by the two `memcpy`s on the
straddling path of `readObject`: the first copies `C - r` bytes to indices
`[0, C - r)`, the second copies `r + 8 + L - C` bytes to indices starting at
`C - r`. -/
def scratchWriteIndices (C r : Int) (L : Nat) : List Int :=
  (List.range (C - r).toNat).map (fun (i : Nat) => (i : Int)) ++
    (List.range (r + 8 + (L : Int) - C).toNat).map (fun (i : Nat) => C - r + (i : Int))

/-- Stored little-endian CRC at offsets `6 + L`, `7 + L` of the frame bytes. -/
def frameCrcStored (data : List Nat) (L : Nat) : Nat :=
  nth data (6 + L) + 256 * nth data (7 + L)

/-- Model of `readObject<T>(obj)`. `id` is the compile-time object ID of `T`,
`sh` the shape of `T`, `obj` the caller's out-parameter. -/
def readObject (C : Int) (id : Int) (sh : Shape) (st : CTState) (pending : List Nat)
    (obj : Value) : ReadResult × Value × CTState × List Nat :=
  if hasObject C st = false then (.NoObjectAvailable, obj, st, pending)
  else
    let r1 := processSerialDataUntil C st pending st.buffer_index
    if r1.1.buffer_size < 6 then (.NotEnoughData, obj, r1.1, r1.2)
    else if getObjectId C r1.1 ≠ id then (.ObjectIdMismatch, obj, r1.1, r1.2)
    else
      let L := readObjectSize C r1.1 r1.1.buffer_index
      if (L : Int) + 8 > r1.1.buffer_size then (.NotEnoughData, obj, r1.1, r1.2)
      else
        let data := readFrameData C r1.1 L
        let crc := frameCrcStored data L
        let computed := compute_crc16 (data.take (6 + L))
        let dr := if crc = computed then deserialize sh (data.drop 6) (L : Int) obj
                  else (obj, 0)
        let st2 := markRead C r1.1 (8 + (L : Int))
        if crc ≠ computed then (.CrcError, obj, st2, r1.2)
        else if L ≠ dr.2 then (.ObjectSizeMismatch, dr.1, st2, r1.2)
        else (.Success, dr.1, st2, r1.2)

/-- Model of `skipObject()`. -/
def skipObject (C : Int) (st : CTState) (pending : List Nat) :
    ReadResult × CTState × List Nat :=
  if hasObject C st = false then (.NoObjectAvailable, st, pending)
  else
    let r1 := processSerialDataUntil C st pending st.buffer_index
    if r1.1.buffer_size < 6 then (.NotEnoughData, r1.1, r1.2)
    else
      let L := readObjectSize C r1.1 r1.1.buffer_index
      if (L : Int) + 8 > r1.1.buffer_size then (.NotEnoughData, r1.1, r1.2)
      else (.Success, markRead C r1.1 ((L : Int) + 8), r1.2)

/-- Frame bytes assembled in `obj_buffer_` by `sendObject<T>(obj)`: marker,
ID little-endian (the `memcpy` of the `int16_t` ID into `uint16_t` is its
two's-complement bit pattern, `id.emod 65536`), payload length little-endian
(`uint16_t` truncation), payload, CRC-16 over the first `6 + L` bytes. -/
def sendFrameBytes (id : Int) (sh : Shape) (v : Value) : List Nat :=
  let payload := serialize sh v
  let head := 2 :: 66 :: (toLE 2 (id.emod 65536).toNat ++ toLE 2 (payload.length % 65536))
  head ++ payload ++ toLE 2 (compute_crc16 (head ++ payload))

/-- Model of `sendObject<T>(obj)` up to the port write: `none` when the frame
exceeds the scratch capacity `S` (`ObjectTooLarge`, nothing written), otherwise
the full frame handed to the port in the single `serial_->write` call. -/
def sendObject (S : Int) (id : Int) (sh : Shape) (v : Value) : Option (List Nat) :=
  if (8 + computeSize sh v : Int) > S then none else some (sendFrameBytes id sh v)

/-- The buffer invariant of spec section 8. -/
def Inv (C : Int) (st : CTState) : Prop :=
  0 ≤ st.buffer_size ∧ st.buffer_size ≤ C ∧ 0 ≤ st.buffer_index ∧ st.buffer_index < C ∧
    (st.buffer_size = 0 → st.buffer_index = 0)

/-- States reachable from a freshly constructed `CrossTalker` (uninitialized
ring content, zero index and size) by the public operations. -/
inductive Reachable (C : Int) : CTState → Prop where
  | init (buf0 : Int → Nat) : Reachable C { buffer := buf0, buffer_index := 0, buffer_size := 0 }
  | ingest {st} (pending : List Nat) (ow : Bool) (h : Reachable C st) :
      Reachable C (processSerialData C st pending ow).1
  | readStep {st} (len : Nat) (h : Reachable C st) : Reachable C (readOp C st len).2
  | skipStep {st} (pending : List Nat) (len : Nat) (h : Reachable C st) :
      Reachable C (skipOp C st pending len).2.1
  | readObj {st} (id : Int) (sh : Shape) (pending : List Nat) (obj : Value)
      (h : Reachable C st) : Reachable C (readObject C id sh st pending obj).2.2.1
  | skipObj {st} (pending : List Nat) (h : Reachable C st) :
      Reachable C (skipObject C st pending).2.1
  | clear {st} (h : Reachable C st) : Reachable C (clearBuffer st)


/-! ## Ring-buffer lemmas -/

theorem wrap1_bounds {C x : Int} (hC : 0 < C) (h0 : 0 ≤ x) (h2 : x < 2 * C) :
    0 ≤ wrap1 C x ∧ wrap1 C x < C := by
  unfold wrap1
  split_ifs <;> omega

theorem sub_emod_self (a b : Int) : (a - b) % b = a % b := by
  conv_lhs => rw [show a - b = a + b * (-1) by ring]
  exact Int.add_mul_emod_self_left a b (-1)

theorem wrap1_eq_emod {C x : Int} (hC : 0 < C) (h0 : 0 ≤ x) (h2 : x < 2 * C) :
    wrap1 C x = x % C := by
  unfold wrap1
  split_ifs with h
  · rw [← sub_emod_self x C, Int.emod_eq_of_lt (by omega) (by omega)]
  · rw [Int.emod_eq_of_lt (by omega) (by omega)]

theorem emod_add_cancel_left (C a b : Int) : (a % C + b) % C = (a + b) % C := by
  rw [Int.add_emod, Int.emod_emod_of_dvd a (dvd_refl C), ← Int.add_emod]

theorem markRead_inv {C : Int} {st : CTState} {count : Int} (hC : 0 < C) (h : Inv C st)
    (h0 : 0 ≤ count) (h1 : count ≤ C) : Inv C (markRead C st count) := by
  obtain ⟨hn0, hnC, hr0, hrC, hz⟩ := h
  have hw := wrap1_bounds (C := C) (x := st.buffer_index + count) hC (by omega) (by omega)
  unfold markRead Inv
  dsimp only
  split_ifs with hs <;> refine ⟨?_, ?_, ?_, ?_, ?_⟩ <;> simp <;> omega

theorem writeRun_outside (bs : List Nat) : ∀ (buf : Int → Nat) (index j : Int),
    (j < index ∨ index + bs.length ≤ j) → writeRun buf index bs j = buf j := by
  induction bs with
  | nil => intro buf index j _; rfl
  | cons b rest ih =>
      intro buf index j hj
      simp only [List.length_cons] at hj
      have h2 : j < index + 1 ∨ (index + 1) + (rest.length : Int) ≤ j := by
        rcases hj with h | h
        · left; omega
        · right; push_cast at h ⊢; omega
      rw [writeRun, ih _ _ _ h2]
      have hne : ¬ j = index := by rcases hj with h | h <;> omega
      simp [hne]


/-! Unfolding equations and per-iteration facts for `processSerialDataLoop`. -/

theorem processSerialDataLoop_stop_nil {C : Int} {st : CTState} {pending : List Nat}
    {m : Int} (h : pending.length = 0) : processSerialDataLoop C st pending m = (st, pending) := by
  rw [processSerialDataLoop, if_pos h]

theorem processSerialDataLoop_stop_max {C : Int} {st : CTState} {pending : List Nat}
    {m : Int} (h : m = 0) : processSerialDataLoop C st pending m = (st, pending) := by
  rw [processSerialDataLoop]
  split_ifs <;> rfl

theorem processSerialDataLoop_step {C : Int} {st : CTState} {pending : List Nat} {m : Int}
    (h1 : ¬ pending.length = 0) (h2 : ¬ m = 0)
    (h3 : ¬ psCount C st (pending.length : Int) m ≤ 0) :
    processSerialDataLoop C st pending m
      = processSerialDataLoop C (psStep C st pending m)
          (pending.drop (psCount C st (pending.length : Int) m).toNat)
          (m - psCount C st (pending.length : Int) m) := by
  rw [processSerialDataLoop, if_neg h1, if_neg h2, if_neg h3]

theorem psCount_le_space (C : Int) (st : CTState) (a m : Int) :
    psCount C st a m ≤ C - psIndex C st := by
  unfold psCount
  omega

theorem psCount_le_max (C : Int) (st : CTState) (a m : Int) : psCount C st a m ≤ m := by
  unfold psCount
  omega

theorem psCount_le_avail (C : Int) (st : CTState) (a m : Int) : psCount C st a m ≤ a := by
  unfold psCount
  omega

theorem psIndex_bounds {C : Int} {st : CTState} (hC : 0 < C) (hInv : Inv C st) :
    0 ≤ psIndex C st ∧ psIndex C st < C := by
  obtain ⟨hn0, hnC, hr0, hrC, _⟩ := hInv
  exact wrap1_bounds hC (by omega) (by omega)

theorem psCount_pos {C : Int} {st : CTState} {a m : Int} (hC : 0 < C) (hInv : Inv C st)
    (ha : 1 ≤ a) (hm : 1 ≤ m) : 0 < psCount C st a m := by
  have := psIndex_bounds hC hInv
  unfold psCount
  omega

theorem psStep_buffer (C : Int) (st : CTState) (pending : List Nat) (m : Int) :
    (psStep C st pending m).buffer
      = writeRun st.buffer (psIndex C st)
          (pending.take (psCount C st (pending.length : Int) m).toNat) := by
  unfold psStep markRead
  dsimp only
  split_ifs <;> rfl

theorem psStep_size {C : Int} (st : CTState) (pending : List Nat) (m : Int) (hC : 0 < C) :
    (psStep C st pending m).buffer_size
      = min (st.buffer_size + psCount C st (pending.length : Int) m) C := by
  unfold psStep markRead
  dsimp only
  split_ifs with h1 h2
  · omega
  · dsimp only
    omega
  · dsimp only
    omega

theorem psStep_index {C : Int} (st : CTState) (pending : List Nat) (m : Int) (hC : 0 < C)
    (hInv : Inv C st) :
    (psStep C st pending m).buffer_index
      = (st.buffer_index +
          (st.buffer_size + psCount C st (pending.length : Int) m
            - (psStep C st pending m).buffer_size)) % C := by
  obtain ⟨hn0, hnC, hr0, hrC, hz⟩ := hInv
  have hsp := psCount_le_space C st (pending.length : Int) m
  have hpi := psIndex_bounds hC ⟨hn0, hnC, hr0, hrC, hz⟩
  unfold psStep markRead
  dsimp only
  split_ifs with h1 h2
  · exact absurd h2 (by omega)
  · dsimp only
    rw [wrap1_eq_emod hC (by omega) (by omega)]
    congr 1
    omega
  · dsimp only
    rw [show st.buffer_index +
        (st.buffer_size + psCount C st (pending.length : Int) m
          - (st.buffer_size + psCount C st (pending.length : Int) m)) = st.buffer_index
      by ring]
    rw [Int.emod_eq_of_lt hr0 hrC]

theorem psStep_inv {C : Int} (st : CTState) (pending : List Nat) (m : Int) (hC : 0 < C)
    (hInv : Inv C st) (hpos : 0 < psCount C st (pending.length : Int) m) :
    Inv C (psStep C st pending m) := by
  obtain ⟨hn0, hnC, hr0, hrC, hz⟩ := hInv
  have hsp := psCount_le_space C st (pending.length : Int) m
  have hpi := psIndex_bounds hC ⟨hn0, hnC, hr0, hrC, hz⟩
  have hsz := psStep_size st pending m hC
  have hix := psStep_index st pending m hC ⟨hn0, hnC, hr0, hrC, hz⟩
  refine ⟨by omega, by omega, ?_, ?_, by omega⟩
  · rw [hix]
    exact Int.emod_nonneg _ (by omega)
  · rw [hix]
    exact Int.emod_lt_of_pos _ hC

/-- One ingestion pass `_processSerialData(max_to_read)` preserves the buffer
invariant, consumes at most `max_to_read` bytes from the port, leaves
`buffer_size_` at `min(old size + consumed, C)` (excess drops the oldest
bytes), and advances `buffer_index_` by exactly the number of dropped bytes
(mod `C`). -/
theorem processSerialDataLoop_spec (C : Int) (fuel : Nat) :
    ∀ (st : CTState) (pending : List Nat) (maxToRead : Int),
    pending.length ≤ fuel → 0 < C → Inv C st → 0 ≤ maxToRead →
    Inv C (processSerialDataLoop C st pending maxToRead).1 ∧
    (processSerialDataLoop C st pending maxToRead).2.length ≤ pending.length ∧
    ((pending.length : Int) - ((processSerialDataLoop C st pending maxToRead).2.length : Int))
      ≤ maxToRead ∧
    (processSerialDataLoop C st pending maxToRead).1.buffer_size
      = min (st.buffer_size +
          ((pending.length : Int) -
            ((processSerialDataLoop C st pending maxToRead).2.length : Int))) C ∧
    (processSerialDataLoop C st pending maxToRead).1.buffer_index
      = (st.buffer_index +
          (st.buffer_size +
            ((pending.length : Int) -
              ((processSerialDataLoop C st pending maxToRead).2.length : Int))
            - (processSerialDataLoop C st pending maxToRead).1.buffer_size)) % C := by
  induction fuel with
  | zero =>
      intro st pending maxToRead hf hC hInv hm
      rw [processSerialDataLoop_stop_nil (by omega)]
      dsimp only
      obtain ⟨hn0, hnC, hr0, hrC, hz⟩ := hInv
      refine ⟨⟨hn0, hnC, hr0, hrC, hz⟩, le_refl _, by omega, by omega, ?_⟩
      have ha : st.buffer_index +
          (st.buffer_size + ((pending.length : Int) - (pending.length : Int))
            - st.buffer_size) = st.buffer_index := by ring
      rw [ha, Int.emod_eq_of_lt hr0 hrC]
  | succ fuel ih =>
      intro st pending maxToRead hf hC hInv hm
      by_cases hp : pending.length = 0
      · rw [processSerialDataLoop_stop_nil hp]
        dsimp only
        obtain ⟨hn0, hnC, hr0, hrC, hz⟩ := hInv
        refine ⟨⟨hn0, hnC, hr0, hrC, hz⟩, le_refl _, by omega, by omega, ?_⟩
        have ha : st.buffer_index +
            (st.buffer_size + ((pending.length : Int) - (pending.length : Int))
              - st.buffer_size) = st.buffer_index := by ring
        rw [ha, Int.emod_eq_of_lt hr0 hrC]
      by_cases hm0 : maxToRead = 0
      · rw [processSerialDataLoop_stop_max hm0]
        dsimp only
        obtain ⟨hn0, hnC, hr0, hrC, hz⟩ := hInv
        refine ⟨⟨hn0, hnC, hr0, hrC, hz⟩, le_refl _, by omega, by omega, ?_⟩
        have ha : st.buffer_index +
            (st.buffer_size + ((pending.length : Int) - (pending.length : Int))
              - st.buffer_size) = st.buffer_index := by ring
        rw [ha, Int.emod_eq_of_lt hr0 hrC]
      have hcpos : 0 < psCount C st (pending.length : Int) maxToRead :=
        psCount_pos hC hInv (by omega) (by omega)
      rw [processSerialDataLoop_step hp hm0 (by omega)]
      set cnt := psCount C st (pending.length : Int) maxToRead with hcntdef
      have hcle : cnt ≤ maxToRead := psCount_le_max C st _ _
      have hclen : cnt ≤ (pending.length : Int) := psCount_le_avail C st _ _
      have hdl : (pending.drop cnt.toNat).length = pending.length - cnt.toNat :=
        List.length_drop _ _
      have hfl : (pending.drop cnt.toNat).length ≤ fuel := by omega
      have hsz := psStep_size st pending maxToRead hC
      have hix := psStep_index st pending maxToRead hC hInv
      obtain ⟨hn0, hnC, hr0, hrC, hz⟩ := hInv
      obtain ⟨ha1, ha2, ha3, ha4, ha5⟩ := ih (psStep C st pending maxToRead)
        (pending.drop cnt.toNat) (maxToRead - cnt) hfl hC
        (psStep_inv st pending maxToRead hC ⟨hn0, hnC, hr0, hrC, hz⟩ hcpos) (by omega)
      refine ⟨ha1, by omega, by omega, by omega, ?_⟩
      rw [ha5, hix, emod_add_cancel_left]
      congr 1
      omega


theorem psStep_no_overflow {C : Int} {st : CTState} {pending : List Nat} {m : Int}
    (h : st.buffer_size + psCount C st (pending.length : Int) m ≤ C) :
    psStep C st pending m
      = { buffer := (writeRun st.buffer (psIndex C st)
            (pending.take (psCount C st (pending.length : Int) m).toNat)),
          buffer_index := st.buffer_index,
          buffer_size := st.buffer_size + psCount C st (pending.length : Int) m } := by
  unfold psStep
  dsimp only
  rw [if_neg (by omega)]

theorem emod_sub_zero_bounds {C x : Int} (hC : 0 < C) (hlo : -C < x) (hhi : x < 0)
    (h : x % C = 0) : False := by
  have h1 : (x + C * 1) % C = x % C := Int.add_mul_emod_self_left x C 1
  have h2 : (x + C * 1) % C = x + C * 1 := Int.emod_eq_of_lt (by omega) (by omega)
  omega

/-- A non-overwrite ingestion pass (`max_to_read ≤ C - buffer_size_`) never
moves `buffer_index_`, only appends: `buffer_size_` grows by exactly the number
of consumed port bytes and every previously buffered byte is unchanged. -/
theorem processSerialDataLoop_noOverwrite (C : Int) (fuel : Nat) :
    ∀ (st : CTState) (pending : List Nat) (maxToRead : Int),
    pending.length ≤ fuel → 0 < C → Inv C st → 0 ≤ maxToRead →
    maxToRead ≤ C - st.buffer_size →
    (processSerialDataLoop C st pending maxToRead).1.buffer_index = st.buffer_index ∧
    (processSerialDataLoop C st pending maxToRead).1.buffer_size
      = st.buffer_size + ((pending.length : Int)
          - ((processSerialDataLoop C st pending maxToRead).2.length : Int)) ∧
    ∀ i : Int, 0 ≤ i → i < st.buffer_size →
      (processSerialDataLoop C st pending maxToRead).1.buffer ((st.buffer_index + i) % C)
        = st.buffer ((st.buffer_index + i) % C) := by
  induction fuel with
  | zero =>
      intro st pending maxToRead hf hC hInv hm hcap
      rw [processSerialDataLoop_stop_nil (by omega)]
      dsimp only
      exact ⟨rfl, by omega, fun i _ _ => rfl⟩
  | succ fuel ih =>
      intro st pending maxToRead hf hC hInv hm hcap
      by_cases hp : pending.length = 0
      · rw [processSerialDataLoop_stop_nil hp]
        dsimp only
        exact ⟨rfl, by omega, fun i _ _ => rfl⟩
      by_cases hm0 : maxToRead = 0
      · rw [processSerialDataLoop_stop_max hm0]
        dsimp only
        exact ⟨rfl, by omega, fun i _ _ => rfl⟩
      have hcpos : 0 < psCount C st (pending.length : Int) maxToRead :=
        psCount_pos hC hInv (by omega) (by omega)
      rw [processSerialDataLoop_step hp hm0 (by omega)]
      set cnt := psCount C st (pending.length : Int) maxToRead with hcntdef
      have hcle : cnt ≤ maxToRead := psCount_le_max C st _ _
      have hclen : cnt ≤ (pending.length : Int) := psCount_le_avail C st _ _
      have hcsp := psCount_le_space C st (pending.length : Int) maxToRead
      obtain ⟨hn0, hnC, hr0, hrC, hz⟩ := hInv
      have hpi := psIndex_bounds hC ⟨hn0, hnC, hr0, hrC, hz⟩
      have hpieq : psIndex C st = (st.buffer_index + st.buffer_size) % C := by
        unfold psIndex
        exact wrap1_eq_emod hC (by omega) (by omega)
      have hnof : st.buffer_size + cnt ≤ C := by omega
      rw [psStep_no_overflow hnof, ← hcntdef]
      have hdl : (pending.drop cnt.toNat).length = pending.length - cnt.toNat :=
        List.length_drop _ _
      have hfl : (pending.drop cnt.toNat).length ≤ fuel := by omega
      have htk : ((pending.take cnt.toNat).length : Int) = cnt := by
        simp [List.length_take]
        omega
      have hInv2 : Inv C { buffer := writeRun st.buffer (psIndex C st) (pending.take cnt.toNat), buffer_index := st.buffer_index, buffer_size := st.buffer_size + cnt } :=
        ⟨by dsimp only; omega, by dsimp only; omega, by dsimp only; omega,
         by dsimp only; omega, by dsimp only; omega⟩
      obtain ⟨hb1, hb2, hb3⟩ := ih _ (pending.drop cnt.toNat) (maxToRead - cnt) hfl hC hInv2
        (by omega) (by (try dsimp only); omega)
      try dsimp only at hb1 hb2 hb3
      refine ⟨by rw [hb1], by rw [hb2]; omega, ?_⟩
      intro i hi0 hin
      rw [hb3 i hi0 (by omega)]
      try dsimp only
      rw [writeRun_outside]
      by_contra hmem
      push_neg at hmem
      obtain ⟨hmem1, hmem2⟩ := hmem
      rw [htk] at hmem2
      have hq0 : 0 ≤ (st.buffer_index + i) % C := Int.emod_nonneg _ (by omega)
      have hqC : (st.buffer_index + i) % C < C := Int.emod_lt_of_pos _ hC
      have hqeq : (st.buffer_index + i) % C
          = (st.buffer_index + st.buffer_size
              + ((st.buffer_index + i) % C - psIndex C st)) % C := by
        calc (st.buffer_index + i) % C
            = (psIndex C st + ((st.buffer_index + i) % C - psIndex C st)) % C := by
              rw [show psIndex C st + ((st.buffer_index + i) % C - psIndex C st)
                  = (st.buffer_index + i) % C by ring]
              exact (Int.emod_eq_of_lt hq0 hqC).symm
          _ = ((st.buffer_index + st.buffer_size) % C
              + ((st.buffer_index + i) % C - psIndex C st)) % C := by rw [hpieq]
          _ = (st.buffer_index + st.buffer_size
              + ((st.buffer_index + i) % C - psIndex C st)) % C := emod_add_cancel_left _ _ _
      have hsub : (i - st.buffer_size - ((st.buffer_index + i) % C - psIndex C st)) % C = 0 := by
        rw [show i - st.buffer_size - ((st.buffer_index + i) % C - psIndex C st)
            = (st.buffer_index + i)
              - (st.buffer_index + st.buffer_size
                  + ((st.buffer_index + i) % C - psIndex C st)) by ring]
        rw [← Int.emod_eq_emod_iff_emod_sub_eq_zero]
        exact hqeq
      exact emod_sub_zero_bounds hC (by omega) (by omega) hsub


/-! ## Frame scanner: characterizing `_findNextObjectIndex` and `available()` -/

/-- Spec 4.3's next-object position as a logical offset: the first `k` with
both marker bytes inside the buffered content (`k + 1 ≤ n - 1`) such that the
byte at logical offset `k` is `0x02` and the byte at `k + 1` is `0x42`. -/
def firstMarkerOffset (C : Int) (buf : Int → Nat) (r : Int) (n : Nat) : Option Nat :=
  (List.range (n - 1)).find? (fun (k : Nat) =>
    decide (buf ((r + (k : Int)) % C) = 2) && decide (buf ((r + (k : Int) + 1) % C) = 66))

/-- Spec-side rendering of `available()` (spec 4.3 generic-byte count): the
wrap-accounted distance from `r` to the next-object position; if that position
is undefined, `n`, or `n - 1` when the last buffered byte is `0x02`; and `0`
when the buffer is empty. -/
def availableSpec (C : Int) (st : CTState) : Int :=
  if st.buffer_size = 0 then 0
  else
    match firstMarkerOffset C st.buffer st.buffer_index st.buffer_size.toNat with
    | some k => (k : Int)
    | none =>
        if st.buffer ((st.buffer_index + st.buffer_size - 1) % C) = 2 then st.buffer_size - 1
        else st.buffer_size

/-- Pair search by logical offset with the same iteration structure as the
do-while loop: `s` remaining byte visits, current offset `k`. -/
def firstMarkerOffsetAux (C : Int) (buf : Int → Nat) (r : Int) : Nat → Nat → Option Nat
  | 0, _ => none
  | 1, _ => none
  | s + 2, k =>
      if buf ((r + (k : Int)) % C) = 2 ∧ buf ((r + (k : Int) + 1) % C) = 66 then some k
      else firstMarkerOffsetAux C buf r (s + 1) (k + 1)

theorem find?_congr_mem {p q : Nat → Bool} :
    ∀ (l : List Nat), (∀ k ∈ l, p k = q k) → l.find? p = l.find? q := by
  intro l
  induction l with
  | nil => intro _; rfl
  | cons a as ih =>
      intro h
      rw [List.find?_cons, List.find?_cons, h a (by simp)]
      cases q a with
      | true => rfl
      | false => exact ih (fun k hk => h k (by simp [hk]))

theorem firstMarkerOffsetAux_eq (C : Int) (buf : Int → Nat) (r : Int) :
    ∀ (s k : Nat), firstMarkerOffsetAux C buf r s k
      = ((List.range (s - 1)).find? (fun j =>
          decide (buf ((r + ((k + j : Nat) : Int)) % C) = 2) &&
          decide (buf ((r + ((k + j : Nat) : Int) + 1) % C) = 66))).map (fun j => k + j) := by
  intro s
  induction s using Nat.strong_induction_on with
  | _ s ih =>
      match s with
      | 0 => intro k; rfl
      | 1 => intro k; rfl
      | s + 2 =>
          intro k
          rw [firstMarkerOffsetAux]
          rw [show s + 2 - 1 = (s + 1 - 1) + 1 by omega, List.range_succ_eq_map,
            List.find?_cons]
          by_cases hp : buf ((r + (k : Int)) % C) = 2 ∧ buf ((r + (k : Int) + 1) % C) = 66
          · rw [if_pos hp]
            have : (decide (buf ((r + ((k + 0 : Nat) : Int)) % C) = 2) &&
                decide (buf ((r + ((k + 0 : Nat) : Int) + 1) % C) = 66)) = true := by
              simp only [Nat.add_zero]
              simp [hp.1, hp.2]
            rw [this]
            simp
          · rw [if_neg hp]
            have hfalse : (decide (buf ((r + ((k + 0 : Nat) : Int)) % C) = 2) &&
                decide (buf ((r + ((k + 0 : Nat) : Int) + 1) % C) = 66)) = false := by
              simp only [Nat.add_zero, Bool.and_eq_false_iff, decide_eq_false_iff_not]
              tauto
            rw [hfalse]
            rw [ih (s + 1) (by omega) (k + 1), List.find?_map, Option.map_map]
            congr 1
            · funext j
              change k + 1 + j = k + (j + 1)
              omega
            · apply find?_congr_mem
              intro j _
              change (decide (buf ((r + ((k + 1 + j : Nat) : Int)) % C) = 2) &&
                  decide (buf ((r + ((k + 1 + j : Nat) : Int) + 1) % C) = 66))
                = (decide (buf ((r + ((k + (j + 1) : Nat) : Int)) % C) = 2) &&
                  decide (buf ((r + ((k + (j + 1) : Nat) : Int) + 1) % C) = 66))
              rw [show k + 1 + j = k + (j + 1) by omega]


theorem findLoop_true_step {C : Int} {buf : Int → Nat} (s : Nat) (idx obj : Int) :
    findLoop C buf (s + 1) idx obj true
      = if buf idx = 66 then obj else findLoop C buf (s + 1) idx obj false := by
  by_cases h : buf idx = 66
  · simp [findLoop, h]
  · by_cases h2 : buf idx = 2 <;> simp [findLoop, h, h2]

theorem findLoop_false_eq {C : Int} {buf : Int → Nat} {r : Int} (hC : 0 < C) (hr0 : 0 ≤ r)
    (hrC : r < C) : ∀ (s k : Nat) (obj : Int),
    findLoop C buf s ((r + (k : Int)) % C) obj false
      = ((firstMarkerOffsetAux C buf r s k).map
          (fun (j : Nat) => (r + (j : Int)) % C)).getD (-1) := by
  intro s
  induction s using Nat.strong_induction_on with
  | _ s ih =>
      match s with
      | 0 => intro k obj; rfl
      | 1 =>
          intro k obj
          rw [findLoop, if_neg (by simp)]
          rfl
      | s + 2 =>
          intro k obj
          have hq0 : 0 ≤ (r + (k : Int)) % C := Int.emod_nonneg _ (by omega)
          have hqC : (r + (k : Int)) % C < C := Int.emod_lt_of_pos _ hC
          have hw : wrap1 C ((r + (k : Int)) % C + 1) = (r + (k : Int) + 1) % C := by
            rw [wrap1_eq_emod hC (by omega) (by omega), emod_add_cancel_left]
          have hcast : r + (k : Int) + 1 = r + ((k + 1 : Nat) : Int) := by push_cast; ring
          rw [findLoop, if_neg (by simp), hw]
          rw [firstMarkerOffsetAux]
          by_cases hb : buf ((r + (k : Int)) % C) = 2
          · rw [if_pos hb, decide_eq_true hb]
            by_cases hn : buf ((r + (k : Int) + 1) % C) = 66
            · rw [findLoop_true_step, if_pos hn, if_pos ⟨hb, hn⟩]
              rfl
            · rw [findLoop_true_step, if_neg hn, if_neg (by tauto)]
              rw [hcast, ih (s + 1) (by omega) (k + 1) ((r + (k : Int)) % C)]
          · rw [if_neg hb, decide_eq_false hb, if_neg (by tauto)]
            rw [hcast, ih (s + 1) (by omega) (k + 1) obj]


theorem emod_two_cases {C x : Int} (hC : 0 < C) (h0 : 0 ≤ x) (h2 : x < 2 * C) :
    x % C = x ∨ x % C = x - C := by
  rcases lt_or_le x C with h | h
  · exact Or.inl (Int.emod_eq_of_lt h0 h)
  · right
    rw [← sub_emod_self x C, Int.emod_eq_of_lt (by omega) (by omega)]

theorem firstMarkerOffsetAux_zero (C : Int) (buf : Int → Nat) (r : Int) (n : Nat) :
    firstMarkerOffsetAux C buf r n 0 = firstMarkerOffset C buf r n := by
  rw [firstMarkerOffsetAux_eq, firstMarkerOffset]
  have h1 : ((List.range (n - 1)).find? (fun j =>
      decide (buf ((r + ((0 + j : Nat) : Int)) % C) = 2) &&
      decide (buf ((r + ((0 + j : Nat) : Int) + 1) % C) = 66)))
      = ((List.range (n - 1)).find? (fun (k : Nat) =>
      decide (buf ((r + (k : Int)) % C) = 2) &&
      decide (buf ((r + (k : Int) + 1) % C) = 66))) := by
    apply find?_congr_mem
    intro j _
    rw [show (0 + j : Nat) = j by omega]
  rw [h1]
  have h2 : ∀ a ∈ ((List.range (n - 1)).find? (fun (k : Nat) =>
      decide (buf ((r + (k : Int)) % C) = 2) &&
      decide (buf ((r + (k : Int) + 1) % C) = 66))), (0 + a : Nat) = a := by
    intro a _
    omega
  rw [Option.map_congr h2]
  simp

theorem findSteps_eq {C r n : Int} (hC : 0 < C) (hr0 : 0 ≤ r) (hrC : r < C) (hn1 : 0 < n)
    (hnC : n ≤ C) : findSteps C r (r + n) = n.toNat := by
  unfold findSteps
  have he2 : (if r + n ≥ C then r + n - C else r + n) = (r + n) % C := by
    split_ifs with h
    · rw [← sub_emod_self (r + n) C, Int.emod_eq_of_lt (by omega) (by omega)]
    · rw [Int.emod_eq_of_lt (by omega) (by omega)]
  rw [he2]
  show (if ((r + n) % C - r) % C = 0 then C.toNat else (((r + n) % C - r) % C).toNat) = n.toNat
  have hd : ((r + n) % C - r) % C = n % C := by
    rw [show (r + n) % C - r = (r + n) % C + (-r) by ring, emod_add_cancel_left,
      show r + n + -r = n by ring]
  rw [hd]
  rcases lt_or_le n C with h | h
  · rw [Int.emod_eq_of_lt (by omega) h]
    rw [if_neg (by omega)]
  · have hnc : n = C := by omega
    subst hnc
    rw [Int.emod_self, if_pos rfl]

theorem findLoop_start {C : Int} {buf : Int → Nat} {r : Int} (hC : 0 < C) (hr0 : 0 ≤ r)
    (hrC : r < C) (s : Nat) (obj : Int) :
    findLoop C buf s r obj false
      = ((firstMarkerOffset C buf r s).map
          (fun (j : Nat) => (r + (j : Int)) % C)).getD (-1) := by
  have h := @findLoop_false_eq C buf r hC hr0 hrC s 0 obj
  rw [show ((0 : Nat) : Int) = 0 by rfl, add_zero, Int.emod_eq_of_lt hr0 hrC,
    firstMarkerOffsetAux_zero] at h
  exact h

/-- The source `available()` computes exactly the spec 4.3 generic-byte count
(`availableSpec`). -/
theorem available_eq_spec {C : Int} {st : CTState} (hC : 0 < C) (hInv : Inv C st) :
    available C st = availableSpec C st := by
  obtain ⟨hn0, hnC, hr0, hrC, hz⟩ := hInv
  unfold available availableSpec
  by_cases h0 : st.buffer_size = 0
  · rw [if_pos h0, if_pos h0]
  rw [if_neg h0, if_neg h0]
  have hfind : findNextObjectIndex C st.buffer st.buffer_index
      (st.buffer_index + st.buffer_size)
      = ((firstMarkerOffset C st.buffer st.buffer_index st.buffer_size.toNat).map
          (fun (j : Nat) => (st.buffer_index + (j : Int)) % C)).getD (-1) := by
    unfold findNextObjectIndex
    rw [findSteps_eq hC hr0 hrC (by omega) hnC]
    exact findLoop_start hC hr0 hrC _ _
  rw [hfind]
  rcases hfm : firstMarkerOffset C st.buffer st.buffer_index st.buffer_size.toNat with _ | j
  · rw [Option.map_none', Option.getD_none, if_pos rfl]
    rw [wrap1_eq_emod hC (by omega) (by omega)]
  · rw [Option.map_some', Option.getD_some]
    dsimp only
    have hj0 : 0 ≤ (st.buffer_index + (j : Int)) % C := Int.emod_nonneg _ (by omega)
    rw [if_neg (by omega)]
    have hjmem := List.mem_of_find?_eq_some hfm
    have hjlt : j < st.buffer_size.toNat - 1 := List.mem_range.mp hjmem
    have hcases := emod_two_cases hC (x := st.buffer_index + (j : Int)) (by omega) (by omega)
    split_ifs with hneg
    · omega
    · omega


theorem availableSpec_bounds {C : Int} {st : CTState} (hC : 0 < C) (hInv : Inv C st) :
    0 ≤ availableSpec C st ∧ availableSpec C st ≤ st.buffer_size := by
  obtain ⟨hn0, hnC, hr0, hrC, hz⟩ := hInv
  unfold availableSpec
  by_cases h0 : st.buffer_size = 0
  · rw [if_pos h0]
    omega
  rw [if_neg h0]
  rcases hfm : firstMarkerOffset C st.buffer st.buffer_index st.buffer_size.toNat with _ | j
  · dsimp only
    split_ifs <;> omega
  · dsimp only
    have hjlt := List.mem_range.mp (List.mem_of_find?_eq_some hfm)
    omega

theorem available_bounds {C : Int} {st : CTState} (hC : 0 < C) (hInv : Inv C st) :
    0 ≤ available C st ∧ available C st ≤ st.buffer_size := by
  rw [available_eq_spec hC hInv]
  exact availableSpec_bounds hC hInv

/-- An object frame at the head of the buffer means no generic bytes precede
it: `hasObject` forces the marker pair at logical offsets 0 and 1, so the
scanner finds it immediately. -/
theorem available_zero_of_hasObject {C : Int} {st : CTState} (hC : 0 < C) (hInv : Inv C st)
    (h : hasObject C st = true) : available C st = 0 := by
  rw [available_eq_spec hC hInv]
  obtain ⟨hn0, hnC, hr0, hrC, hz⟩ := hInv
  unfold hasObject at h
  split_ifs at h with h1
  push_neg at h1
  have h66 : st.buffer (wrap1 C (st.buffer_index + 1)) = 66 := of_decide_eq_true h
  unfold availableSpec
  rw [if_neg (by omega)]
  have hm : st.buffer_size.toNat - 1 = (st.buffer_size.toNat - 2) + 1 := by omega
  unfold firstMarkerOffset
  rw [hm, List.range_succ_eq_map, List.find?_cons]
  have hpred : (decide (st.buffer ((st.buffer_index + ((0 : Nat) : Int)) % C) = 2) &&
      decide (st.buffer ((st.buffer_index + ((0 : Nat) : Int) + 1) % C) = 66)) = true := by
    have e1 : (st.buffer_index + ((0 : Nat) : Int)) % C = st.buffer_index := by
      rw [show st.buffer_index + ((0 : Nat) : Int) = st.buffer_index by push_cast; ring]
      exact Int.emod_eq_of_lt hr0 hrC
    have e2 : (st.buffer_index + ((0 : Nat) : Int) + 1) % C
        = wrap1 C (st.buffer_index + 1) := by
      rw [show st.buffer_index + ((0 : Nat) : Int) + 1 = st.buffer_index + 1 by push_cast; ring]
      exact (wrap1_eq_emod hC (by omega) (by omega)).symm
    rw [e1, e2, h1.2, h66]
    simp
  rw [hpred]
  simp

theorem processSerialData_inv {C : Int} {st : CTState} {pending : List Nat} {ow : Bool}
    (hC : 0 < C) (hInv : Inv C st) : Inv C (processSerialData C st pending ow).1 := by
  obtain ⟨hn0, hnC, hr0, hrC, hz⟩ := hInv
  unfold processSerialData
  split_ifs with h1 h2 h3
  · exact (processSerialDataLoop_spec C pending.length st pending _ le_rfl hC
      ⟨hn0, hnC, hr0, hrC, hz⟩ (by omega)).1
  · exact (processSerialDataLoop_spec C pending.length st pending _ le_rfl hC
      ⟨hn0, hnC, hr0, hrC, hz⟩ (by omega)).1
  · exact (processSerialDataLoop_spec C pending.length st pending _ le_rfl hC
      ⟨hn0, hnC, hr0, hrC, hz⟩ (by omega)).1
  · exact ⟨hn0, hnC, hr0, hrC, hz⟩

theorem readOp_inv {C : Int} {st : CTState} {length : Nat} (hC : 0 < C) (hInv : Inv C st) :
    Inv C (readOp C st length).2 := by
  have hav := available_bounds hC hInv
  obtain ⟨hn0, hnC, hr0, hrC, hz⟩ := hInv
  unfold readOp
  dsimp only
  split_ifs with h1 h2
  · exact ⟨hn0, hnC, hr0, hrC, hz⟩
  · exact markRead_inv hC ⟨hn0, hnC, hr0, hrC, hz⟩ (by omega) (by omega)
  · exact ⟨hn0, hnC, hr0, hrC, hz⟩
  · exact markRead_inv hC ⟨hn0, hnC, hr0, hrC, hz⟩ (by omega) (by omega)

theorem skipOp_inv {C : Int} {st : CTState} {pending : List Nat} {length : Nat}
    (hC : 0 < C) (hInv : Inv C st) : Inv C (skipOp C st pending length).2.1 := by
  have hInv1 : Inv C (processSerialData C st pending false).1 :=
    processSerialData_inv hC hInv
  have hav := available_bounds hC hInv1
  obtain ⟨i1, i2, i3, i4, i5⟩ := hInv1
  unfold skipOp
  dsimp only
  split_ifs with h1
  · exact markRead_inv hC ⟨i1, i2, i3, i4, i5⟩ (by omega) (by omega)
  · exact markRead_inv hC ⟨i1, i2, i3, i4, i5⟩ (by omega) (by omega)

theorem processSerialDataUntil_self (C : Int) (st : CTState) (pending : List Nat) :
    processSerialDataUntil C st pending st.buffer_index
      = processSerialDataLoop C st pending (C - st.buffer_size) := by
  unfold processSerialDataUntil
  dsimp only
  rw [sub_self, if_neg (by omega), zero_add]

theorem readObject_inv {C id : Int} {sh : Shape} {st : CTState} {pending : List Nat}
    {obj : Value} (hC : 0 < C) (hInv : Inv C st) :
    Inv C (readObject C id sh st pending obj).2.2.1 := by
  obtain ⟨hn0, hnC, hr0, hrC, hz⟩ := hInv
  have hspec := processSerialDataLoop_spec C pending.length st pending
    (C - st.buffer_size) le_rfl hC ⟨hn0, hnC, hr0, hrC, hz⟩ (by omega)
  unfold readObject
  rw [processSerialDataUntil_self]
  dsimp only
  split_ifs <;>
    first
      | exact ⟨hn0, hnC, hr0, hrC, hz⟩
      | exact hspec.1
      | exact markRead_inv hC hspec.1 (by omega)
          (by
            have h1 := hspec.1.2.1
            omega)

theorem skipObject_inv {C : Int} {st : CTState} {pending : List Nat}
    (hC : 0 < C) (hInv : Inv C st) : Inv C (skipObject C st pending).2.1 := by
  obtain ⟨hn0, hnC, hr0, hrC, hz⟩ := hInv
  have hspec := processSerialDataLoop_spec C pending.length st pending
    (C - st.buffer_size) le_rfl hC ⟨hn0, hnC, hr0, hrC, hz⟩ (by omega)
  unfold skipObject
  rw [processSerialDataUntil_self]
  dsimp only
  split_ifs <;>
    first
      | exact ⟨hn0, hnC, hr0, hrC, hz⟩
      | exact hspec.1
      | exact markRead_inv hC hspec.1 (by omega)
          (by
            have h1 := hspec.1.2.1
            omega)

theorem clearBuffer_inv {C : Int} (st : CTState) (hC : 0 < C) : Inv C (clearBuffer st) := by
  unfold clearBuffer Inv
  refine ⟨?_, ?_, ?_, ?_, ?_⟩ <;> simp <;> omega

/-- Every state reachable by the public operations satisfies the buffer
invariant. -/
theorem reachable_inv {C : Int} {st : CTState} (hC : 0 < C) (h : Reachable C st) :
    Inv C st := by
  induction h with
  | init buf0 =>
      unfold Inv
      refine ⟨?_, ?_, ?_, ?_, ?_⟩ <;> simp <;> omega
  | ingest pending ow h ih => exact processSerialData_inv hC ih
  | readStep len h ih => exact readOp_inv hC ih
  | skipStep pending len h ih => exact skipOp_inv hC ih
  | readObj id sh pending obj h ih => exact readObject_inv hC ih
  | skipObj pending h ih => exact skipObject_inv hC ih
  | clear h ih => exact clearBuffer_inv _ hC


/-! ## Structure of `readObject`: which frames are consumed, which retained -/

/-- The buffer state after `readObject`'s internal ingestion pass
(`_processSerialDataUntil(buffer_index_)`). -/
def roIngested (C : Int) (st : CTState) (pending : List Nat) : CTState :=
  (processSerialDataUntil C st pending st.buffer_index).1

/-- The payload length `L` the read path takes from the frame header. -/
def roSize (C : Int) (st : CTState) (pending : List Nat) : Nat :=
  readObjectSize C (roIngested C st pending) (roIngested C st pending).buffer_index

/-- The linearized frame bytes the read path works on. -/
def roData (C : Int) (st : CTState) (pending : List Nat) : List Nat :=
  readFrameData C (roIngested C st pending) (roSize C st pending)

/-- CRC acceptance condition of the read path: stored CRC equals the CRC
recomputed over the first `6 + L` frame bytes. -/
def roCrcOk (C : Int) (st : CTState) (pending : List Nat) : Prop :=
  frameCrcStored (roData C st pending) (roSize C st pending)
    = compute_crc16 ((roData C st pending).take (6 + roSize C st pending))

/-- Byte count consumed by the schema decoder on the payload. -/
def roConsumed (C : Int) (sh : Shape) (st : CTState) (pending : List Nat) (obj : Value) : Nat :=
  (deserialize sh ((roData C st pending).drop 6) ((roSize C st pending : Nat) : Int) obj).2

/-- On `CrcError` and `ObjectSizeMismatch` the read path has already executed
`_markRead(8 + L)` on the ingested state: the full frame is consumed. -/
theorem readObject_error_consumes {C id : Int} {sh : Shape} {st : CTState}
    {pending : List Nat} {obj : Value}
    (hres : (readObject C id sh st pending obj).1 = .CrcError ∨
      (readObject C id sh st pending obj).1 = .ObjectSizeMismatch) :
    (readObject C id sh st pending obj).2.2.1
      = markRead C (roIngested C st pending) (8 + (roSize C st pending : Int)) := by
  unfold readObject at hres ⊢
  unfold roIngested roSize
  dsimp only at hres ⊢
  by_cases h1 : hasObject C st = false
  · rw [if_pos h1] at hres
    try dsimp only at hres
    rcases hres with h | h <;> exact absurd h (by simp)
  rw [if_neg h1] at hres ⊢
  by_cases h2 : (processSerialDataUntil C st pending st.buffer_index).1.buffer_size < 6
  · rw [if_pos h2] at hres
    try dsimp only at hres
    rcases hres with h | h <;> exact absurd h (by simp)
  rw [if_neg h2] at hres ⊢
  by_cases h3 : getObjectId C (processSerialDataUntil C st pending st.buffer_index).1 ≠ id
  · rw [if_pos h3] at hres
    try dsimp only at hres
    rcases hres with h | h <;> exact absurd h (by simp)
  rw [if_neg h3] at hres ⊢
  by_cases h4 : ((readObjectSize C (processSerialDataUntil C st pending st.buffer_index).1
      (processSerialDataUntil C st pending st.buffer_index).1.buffer_index : Nat) : Int) + 8
      > (processSerialDataUntil C st pending st.buffer_index).1.buffer_size
  · rw [if_pos h4] at hres
    try dsimp only at hres
    rcases hres with h | h <;> exact absurd h (by simp)
  rw [if_neg h4] at hres ⊢
  try dsimp only at hres ⊢
  split_ifs at hres ⊢ <;> rfl

/-- On `NoObjectAvailable`, `NotEnoughData` and `ObjectIdMismatch` the read
index is unchanged, the buffer has only grown, and every previously buffered
byte (in particular the whole frame at the head) is untouched. -/
theorem readObject_retains_frame {C id : Int} {sh : Shape} {st : CTState}
    {pending : List Nat} {obj : Value} (hC : 0 < C) (hInv : Inv C st)
    (hres : (readObject C id sh st pending obj).1 = .NoObjectAvailable ∨
      (readObject C id sh st pending obj).1 = .NotEnoughData ∨
      (readObject C id sh st pending obj).1 = .ObjectIdMismatch) :
    (readObject C id sh st pending obj).2.2.1.buffer_index = st.buffer_index ∧
    st.buffer_size ≤ (readObject C id sh st pending obj).2.2.1.buffer_size ∧
    ∀ i : Int, 0 ≤ i → i < st.buffer_size →
      (readObject C id sh st pending obj).2.2.1.buffer ((st.buffer_index + i) % C)
        = st.buffer ((st.buffer_index + i) % C) := by
  obtain ⟨hn0, hnC, hr0, hrC, hz⟩ := hInv
  have hspec := processSerialDataLoop_spec C pending.length st pending
    (C - st.buffer_size) le_rfl hC ⟨hn0, hnC, hr0, hrC, hz⟩ (by omega)
  have hno := processSerialDataLoop_noOverwrite C pending.length st pending
    (C - st.buffer_size) le_rfl hC ⟨hn0, hnC, hr0, hrC, hz⟩ (by omega) (by omega)
  have hk := hspec.2.1
  have hs := hno.2.1
  unfold readObject at hres ⊢
  rw [processSerialDataUntil_self] at hres ⊢
  dsimp only at hres ⊢
  by_cases h1 : hasObject C st = false
  · rw [if_pos h1]
    dsimp only
    exact ⟨rfl, le_refl _, fun i _ _ => rfl⟩
  rw [if_neg h1] at hres ⊢
  by_cases h2 : (processSerialDataLoop C st pending (C - st.buffer_size)).1.buffer_size < 6
  · rw [if_pos h2]
    dsimp only
    exact ⟨hno.1, by omega, hno.2.2⟩
  rw [if_neg h2] at hres ⊢
  by_cases h3 : getObjectId C (processSerialDataLoop C st pending (C - st.buffer_size)).1 ≠ id
  · rw [if_pos h3]
    dsimp only
    exact ⟨hno.1, by omega, hno.2.2⟩
  rw [if_neg h3] at hres ⊢
  by_cases h4 : ((readObjectSize C (processSerialDataLoop C st pending (C - st.buffer_size)).1
      (processSerialDataLoop C st pending (C - st.buffer_size)).1.buffer_index : Nat) : Int) + 8
      > (processSerialDataLoop C st pending (C - st.buffer_size)).1.buffer_size
  · rw [if_pos h4]
    dsimp only
    exact ⟨hno.1, by omega, hno.2.2⟩
  rw [if_neg h4] at hres
  try dsimp only at hres
  split_ifs at hres <;> rcases hres with h | h | h <;> exact absurd h (by simp)


/-- `ObjectSizeMismatch` is returned exactly when the frame made it past the
head/metadata/ID/length guards, the CRC check passed, and the schema decoder
consumed a byte count different from the header length `L`. -/
theorem readObject_size_mismatch_iff {C id : Int} {sh : Shape} {st : CTState}
    {pending : List Nat} {obj : Value} :
    (readObject C id sh st pending obj).1 = .ObjectSizeMismatch
      ↔ (hasObject C st = true ∧
         6 ≤ (roIngested C st pending).buffer_size ∧
         getObjectId C (roIngested C st pending) = id ∧
         (roSize C st pending : Int) + 8 ≤ (roIngested C st pending).buffer_size ∧
         roCrcOk C st pending ∧
         roConsumed C sh st pending obj ≠ roSize C st pending) := by
  unfold readObject roCrcOk roConsumed roData roSize roIngested
  dsimp only
  by_cases h1 : hasObject C st = false
  · rw [if_pos h1]
    dsimp only
    constructor
    · intro h
      exact absurd h (by simp)
    · rintro ⟨ht, -⟩
      rw [h1] at ht
      exact absurd ht (by simp)
  rw [if_neg h1]
  have h1t : hasObject C st = true := by
    revert h1
    cases hasObject C st <;> simp
  by_cases h2 : (processSerialDataUntil C st pending st.buffer_index).1.buffer_size < 6
  · rw [if_pos h2]
    dsimp only
    constructor
    · intro h
      exact absurd h (by simp)
    · rintro ⟨-, h6, -⟩
      omega
  rw [if_neg h2]
  by_cases h3 : getObjectId C (processSerialDataUntil C st pending st.buffer_index).1 ≠ id
  · rw [if_pos h3]
    dsimp only
    constructor
    · intro h
      exact absurd h (by simp)
    · rintro ⟨-, -, hid, -⟩
      exact absurd hid h3
  rw [if_neg h3]
  push_neg at h3
  by_cases h4 : ((readObjectSize C (processSerialDataUntil C st pending st.buffer_index).1
      (processSerialDataUntil C st pending st.buffer_index).1.buffer_index : Nat) : Int) + 8
      > (processSerialDataUntil C st pending st.buffer_index).1.buffer_size
  · rw [if_pos h4]
    dsimp only
    constructor
    · intro h
      exact absurd h (by simp)
    · rintro ⟨-, -, -, hle, -⟩
      omega
  rw [if_neg h4]
  try dsimp only
  by_cases h5 : frameCrcStored
      (readFrameData C (processSerialDataUntil C st pending st.buffer_index).1
        (readObjectSize C (processSerialDataUntil C st pending st.buffer_index).1
          (processSerialDataUntil C st pending st.buffer_index).1.buffer_index))
      (readObjectSize C (processSerialDataUntil C st pending st.buffer_index).1
        (processSerialDataUntil C st pending st.buffer_index).1.buffer_index)
      = compute_crc16 ((readFrameData C (processSerialDataUntil C st pending st.buffer_index).1
          (readObjectSize C (processSerialDataUntil C st pending st.buffer_index).1
            (processSerialDataUntil C st pending st.buffer_index).1.buffer_index)).take
          (6 + readObjectSize C (processSerialDataUntil C st pending st.buffer_index).1
            (processSerialDataUntil C st pending st.buffer_index).1.buffer_index))
  · rw [if_pos h5, if_neg (not_not_intro h5)]
    by_cases h7 : readObjectSize C (processSerialDataUntil C st pending st.buffer_index).1
        (processSerialDataUntil C st pending st.buffer_index).1.buffer_index
        ≠ (deserialize sh
            ((readFrameData C (processSerialDataUntil C st pending st.buffer_index).1
              (readObjectSize C (processSerialDataUntil C st pending st.buffer_index).1
                (processSerialDataUntil C st pending st.buffer_index).1.buffer_index)).drop 6)
            ((readObjectSize C (processSerialDataUntil C st pending st.buffer_index).1
              (processSerialDataUntil C st pending st.buffer_index).1.buffer_index : Nat) : Int)
            obj).2
    · rw [if_pos h7]
      dsimp only
      constructor
      · intro _
        exact ⟨h1t, by omega, h3, by omega, h5, Ne.symm h7⟩
      · intro _
        rfl
    · rw [if_neg h7]
      push_neg at h7
      dsimp only
      constructor
      · intro h
        exact absurd h (by simp)
      · rintro ⟨-, -, -, -, -, hcons⟩
        exact absurd h7.symm hcons
  · rw [if_neg h5, if_pos h5]
    dsimp only
    constructor
    · intro h
      exact absurd h (by simp)
    · rintro ⟨-, -, -, -, hcrc, -⟩
      exact absurd hcrc h5


/-! ## Scratch-buffer accesses of the straddling read path (claim C10) -/

theorem scratchWriteIndices_eq {C r : Int} {L : Nat} (hr0 : 0 ≤ r) (hrC : r < C)
    (hwrap : r + (L : Int) + 8 > C) :
    scratchWriteIndices C r L = (List.range (8 + L)).map (fun (i : Nat) => (i : Int)) := by
  unfold scratchWriteIndices
  have hsplit : 8 + L = (C - r).toNat + (r + 8 + (L : Int) - C).toNat := by omega
  rw [hsplit, List.range_add, List.map_append]
  congr 1
  rw [List.map_map]
  apply List.map_congr_left
  intro i hi
  simp only [Function.comp_apply]
  omega

theorem scratch_inbounds_iff {C r S : Int} {L : Nat} (hr0 : 0 ≤ r) (hrC : r < C)
    (hwrap : r + (L : Int) + 8 > C) :
    (∀ j ∈ scratchWriteIndices C r L, j < S) ↔ ((8 + L : Nat) : Int) ≤ S := by
  rw [scratchWriteIndices_eq hr0 hrC hwrap]
  constructor
  · intro h
    have hmem : ((7 + L : Nat) : Int) ∈ (List.range (8 + L)).map (fun (i : Nat) => (i : Int)) := by
      apply List.mem_map.2
      exact ⟨7 + L, List.mem_range.2 (by omega), rfl⟩
    have := h _ hmem
    push_cast at this ⊢
    omega
  · intro hS j hj
    obtain ⟨i, hi, rfl⟩ := List.mem_map.1 hj
    have := List.mem_range.1 hi
    push_cast at hS
    omega

/-! ## Send path -/

theorem crc16Step_lt (crc b : Nat) : crc16Step crc b < 65536 := by
  unfold crc16Step
  exact Nat.mod_lt _ (by norm_num)

theorem compute_crc16_lt (data : List Nat) : compute_crc16 data < 65536 := by
  unfold compute_crc16
  have h : ∀ (l : List Nat) (c : Nat), c < 65536 → l.foldl crc16Step c < 65536 := by
    intro l
    induction l with
    | nil => intro c hc; exact hc
    | cons b bs ih =>
        intro c hc
        rw [List.foldl_cons]
        exact ih _ (crc16Step_lt c b)
  exact h data 0xFFFF (by norm_num)

theorem toLE2_explicit (v : Nat) : toLE 2 v = [v % 256, v / 256 % 256] := by
  simp [toLE]

/-- Explicit cons form of the assembled frame. -/
theorem sendFrameBytes_explicit (id : Int) (sh : Shape) (v : Value) :
    sendFrameBytes id sh v
      = 2 :: 66 :: ((id.emod 65536).toNat % 256) :: ((id.emod 65536).toNat / 256 % 256)
        :: ((serialize sh v).length % 65536 % 256)
        :: ((serialize sh v).length % 65536 / 256 % 256)
        :: (serialize sh v
            ++ toLE 2 (compute_crc16 (2 :: 66 :: ((id.emod 65536).toNat % 256)
              :: ((id.emod 65536).toNat / 256 % 256)
              :: ((serialize sh v).length % 65536 % 256)
              :: ((serialize sh v).length % 65536 / 256 % 256) :: serialize sh v))) := by
  unfold sendFrameBytes
  simp [toLE2_explicit]


theorem nth_append_left (l1 l2 : List Nat) (i : Nat) (h : i < l1.length) :
    nth (l1 ++ l2) i = nth l1 i :=
  List.getD_append l1 l2 0 i h

theorem nth_append_right (l1 l2 : List Nat) (i : Nat) (h : l1.length ≤ i) :
    nth (l1 ++ l2) i = nth l2 (i - l1.length) :=
  List.getD_append_right l1 l2 0 i h

/-- Wire-format facts of the assembled frame: `sendObject` hands the port the
single write `sendFrameBytes id sh v`, of length `8 + compute_size`, starting
with the marker `0x02 0x42`, then the ID little-endian, the payload length
little-endian, the serialized payload, and the CRC-16 over the first `6 + L`
bytes little-endian. -/
theorem sendFrame_wire {S id : Int} {sh : Shape} {v : Value}
    (hsh : hasShape sh v = true) (hid0 : 0 ≤ id) (hid1 : id < 32768)
    (hL : computeSize sh v < 65536) (hS : (8 + computeSize sh v : Int) ≤ S) :
    sendObject S id sh v = some (sendFrameBytes id sh v) ∧
    (sendFrameBytes id sh v).length = 8 + computeSize sh v ∧
    nth (sendFrameBytes id sh v) 0 = 2 ∧
    nth (sendFrameBytes id sh v) 1 = 66 ∧
    nth (sendFrameBytes id sh v) 2 + 256 * nth (sendFrameBytes id sh v) 3 = id.toNat ∧
    nth (sendFrameBytes id sh v) 4 + 256 * nth (sendFrameBytes id sh v) 5
      = computeSize sh v ∧
    ((sendFrameBytes id sh v).drop 6).take (computeSize sh v) = serialize sh v ∧
    nth (sendFrameBytes id sh v) (6 + computeSize sh v)
        + 256 * nth (sendFrameBytes id sh v) (7 + computeSize sh v)
      = compute_crc16 ((sendFrameBytes id sh v).take (6 + computeSize sh v)) := by
  have hlen : (serialize sh v).length = computeSize sh v := serialize_length sh v hsh
  have hmod : (serialize sh v).length % 65536 = (serialize sh v).length :=
    Nat.mod_eq_of_lt (by omega)
  have huid : id.emod 65536 = id := Int.emod_eq_of_lt (by omega) (by omega)
  refine ⟨?_, ?_, ?_, ?_, ?_, ?_, ?_, ?_⟩
  · unfold sendObject
    rw [if_neg (by omega)]
  · rw [sendFrameBytes_explicit]
    simp [toLE_length]
    omega
  · rw [sendFrameBytes_explicit]
    rfl
  · rw [sendFrameBytes_explicit]
    rfl
  · have e2 : nth (sendFrameBytes id sh v) 2 = (id.emod 65536).toNat % 256 := by
      rw [sendFrameBytes_explicit]
      rfl
    have e3 : nth (sendFrameBytes id sh v) 3 = (id.emod 65536).toNat / 256 % 256 := by
      rw [sendFrameBytes_explicit]
      rfl
    rw [e2, e3, huid]
    omega
  · have e4 : nth (sendFrameBytes id sh v) 4
        = (serialize sh v).length % 65536 % 256 := by
      rw [sendFrameBytes_explicit]
      rfl
    have e5 : nth (sendFrameBytes id sh v) 5
        = (serialize sh v).length % 65536 / 256 % 256 := by
      rw [sendFrameBytes_explicit]
      rfl
    rw [e4, e5, hmod]
    omega
  · rw [sendFrameBytes_explicit]
    show ((serialize sh v) ++ toLE 2 _).take (computeSize sh v) = serialize sh v
    rw [← hlen]
    exact List.take_left' rfl
  · have hc := compute_crc16_lt (2 :: 66 :: ((id.emod 65536).toNat % 256)
      :: ((id.emod 65536).toNat / 256 % 256)
      :: ((serialize sh v).length % 65536 % 256)
      :: ((serialize sh v).length % 65536 / 256 % 256) :: serialize sh v)
    have hhd : ([2, 66, (id.emod 65536).toNat % 256, (id.emod 65536).toNat / 256 % 256,
        (serialize sh v).length % 65536 % 256,
        (serialize sh v).length % 65536 / 256 % 256] : List Nat).length = 6 := by
      simp
    have hform : sendFrameBytes id sh v
        = ([2, 66, (id.emod 65536).toNat % 256, (id.emod 65536).toNat / 256 % 256,
            (serialize sh v).length % 65536 % 256,
            (serialize sh v).length % 65536 / 256 % 256] : List Nat)
          ++ (serialize sh v
            ++ toLE 2 (compute_crc16 (2 :: 66 :: ((id.emod 65536).toNat % 256)
              :: ((id.emod 65536).toNat / 256 % 256)
              :: ((serialize sh v).length % 65536 % 256)
              :: ((serialize sh v).length % 65536 / 256 % 256) :: serialize sh v))) := by
      rw [sendFrameBytes_explicit]
      rfl
    rw [hform]
    rw [nth_append_right _ _ _ (by rw [hhd]; omega),
      nth_append_right _ _ _ (by rw [hhd]; omega)]
    rw [nth_append_right _ _ _ (by simp only [hhd]; omega),
      nth_append_right _ _ _ (by simp only [hhd]; omega)]
    simp only [hhd]
    rw [show 6 + computeSize sh v - 6 - (serialize sh v).length = 0 from by omega,
      show 7 + computeSize sh v - 6 - (serialize sh v).length = 1 from by omega]
    have htake : (([2, 66, (id.emod 65536).toNat % 256, (id.emod 65536).toNat / 256 % 256,
        (serialize sh v).length % 65536 % 256,
        (serialize sh v).length % 65536 / 256 % 256] : List Nat)
          ++ (serialize sh v
            ++ toLE 2 (compute_crc16 (2 :: 66 :: ((id.emod 65536).toNat % 256)
              :: ((id.emod 65536).toNat / 256 % 256)
              :: ((serialize sh v).length % 65536 % 256)
              :: ((serialize sh v).length % 65536 / 256 % 256)
              :: serialize sh v)))).take (6 + computeSize sh v)
        = 2 :: 66 :: ((id.emod 65536).toNat % 256)
          :: ((id.emod 65536).toNat / 256 % 256)
          :: ((serialize sh v).length % 65536 % 256)
          :: ((serialize sh v).length % 65536 / 256 % 256) :: serialize sh v := by
      rw [show (6 + computeSize sh v)
          = ([2, 66, (id.emod 65536).toNat % 256, (id.emod 65536).toNat / 256 % 256,
              (serialize sh v).length % 65536 % 256,
              (serialize sh v).length % 65536 / 256 % 256] : List Nat).length
            + computeSize sh v by rw [hhd]]
      rw [List.take_append]
      rw [← hlen, List.take_left' rfl]
      rfl
    rw [htake]
    rw [toLE2_explicit]
    simp [nth]
    omega

/-! ## Claim-level results -/

/-- The `uint16_t` length fields break the unrestricted round-trip: for the
65536-byte string, `serialize` writes the header length `65536 % 65536 = 0`,
so `deserialize` reads back length `0`, consumes `2` bytes instead of
`compute_size = 65538`, and returns the empty string, not the original value. -/
theorem c1_u16_truncation_counterexample :
    hasShape .str (Value.str (List.replicate 65536 0)) = true ∧
    deserialize .str (serialize .str (Value.str (List.replicate 65536 0)))
        ((computeSize .str (Value.str (List.replicate 65536 0)) : Nat) : Int) (Value.str [])
      ≠ (Value.str (List.replicate 65536 0),
          computeSize .str (Value.str (List.replicate 65536 0))) := by
  have hcsg : ∀ bs : List Nat, computeSize .str (Value.str bs) = 2 + bs.length := by
    intro bs
    simp [computeSize]
  have hserg : ∀ bs : List Nat, serialize .str (Value.str bs)
      = toLE 2 (bs.length % 65536) ++ bs := by
    intro bs
    simp [serialize]
  have hcs : computeSize .str (Value.str (List.replicate 65536 0)) = 65538 := by
    rw [hcsg, List.length_replicate]
  have hser : serialize .str (Value.str (List.replicate 65536 0))
      = 0 :: 0 :: List.replicate 65536 0 := by
    rw [hserg, List.length_replicate, toLE2_explicit]
    norm_num
  constructor
  · simp only [hasShape, List.all_eq_true]
    intro b hb
    rw [List.eq_of_mem_replicate hb]
    decide
  · rw [hcs, hser]
    have hdesg : ∀ l : List Nat, deserialize .str (0 :: 0 :: l)
        (((65538 : Nat) : Int)) (Value.str []) = (Value.str [], 2) := by
      intro l
      rw [deserialize]
      norm_num [readU16, nth]
    rw [hdesg]
    intro h
    have h2 := congrArg Prod.snd h
    simp at h2

/-- The `uint16_t` truncation of the frame length field: for a payload of
`compute_size = 65536` bytes (a 65534-byte string) with a scratch buffer large
enough to hold the frame (`S = 70000`), `sendObject` writes the frame, but its
length field (bytes 4 and 5) reads back `65536 % 65536 = 0`, not
`compute_size`, refuting the claimed wire format for lengths at `65536` and
beyond. -/
theorem c2_length_field_counterexample :
    (0 : Int) ≤ 1 ∧ (1 : Int) < 32768 ∧
    (8 + computeSize .str (Value.str (List.replicate 65534 0)) : Int) ≤ 70000 ∧
    sendObject 70000 1 .str (Value.str (List.replicate 65534 0))
      = some (sendFrameBytes 1 .str (Value.str (List.replicate 65534 0))) ∧
    nth (sendFrameBytes 1 .str (Value.str (List.replicate 65534 0))) 4
        + 256 * nth (sendFrameBytes 1 .str (Value.str (List.replicate 65534 0))) 5
      ≠ computeSize .str (Value.str (List.replicate 65534 0)) := by
  have hcsg : ∀ bs : List Nat, computeSize .str (Value.str bs) = 2 + bs.length := by
    intro bs
    simp [computeSize]
  have hcs : computeSize .str (Value.str (List.replicate 65534 0)) = 65536 := by
    rw [hcsg, List.length_replicate]
  have hlg : ∀ bs : List Nat, (serialize .str (Value.str bs)).length = 2 + bs.length := by
    intro bs
    simp [serialize, toLE_length]
  have hlen : (serialize .str (Value.str (List.replicate 65534 0))).length = 65536 := by
    rw [hlg, List.length_replicate]
  refine ⟨by norm_num, by norm_num, by rw [hcs]; norm_num, ?_, ?_⟩
  · unfold sendObject
    rw [if_neg (by rw [hcs]; norm_num)]
  · have key : ∀ (a b c d : Nat) (p t : List Nat),
        nth (2 :: 66 :: a :: b :: c :: d :: (p ++ t)) 4 = c ∧
        nth (2 :: 66 :: a :: b :: c :: d :: (p ++ t)) 5 = d := by
      intro a b c d p t
      exact ⟨rfl, rfl⟩
    have e4 : nth (sendFrameBytes 1 .str (Value.str (List.replicate 65534 0))) 4
        = (serialize .str (Value.str (List.replicate 65534 0))).length % 65536 % 256 := by
      rw [sendFrameBytes_explicit]
      exact (key _ _ _ _ _ _).1
    have e5 : nth (sendFrameBytes 1 .str (Value.str (List.replicate 65534 0))) 5
        = (serialize .str (Value.str (List.replicate 65534 0))).length % 65536 / 256 % 256 := by
      rw [sendFrameBytes_explicit]
      exact (key _ _ _ _ _ _).2
    rw [e4, e5, hlen, hcs]
    norm_num

/-- C1 (corrected: every length field of the value — string bytes, vector
element count — must fit `uint16_t`, i.e. `wfLen`): for every well-shaped
value, `compute_size` equals the byte count written by `serialize`, and
`deserialize` on those bytes with that length consumes exactly that many bytes
and reproduces the value, for any initial out-value of the same shape. -/
theorem c1_codec_roundtrip (sh : Shape) (v cur : Value) (hsh : hasShape sh v = true)
    (hwf : wfLen v = true) (hcur : hasShape sh cur = true) :
    (serialize sh v).length = computeSize sh v ∧
    deserialize sh (serialize sh v) ((computeSize sh v : Nat) : Int) cur
      = (v, computeSize sh v) :=
  ⟨serialize_length sh v hsh, serialize_roundtrip sh v cur hsh hwf hcur⟩

theorem c1_codec_roundtrip_witness :
    hasShape .str (Value.str [1, 2]) = true ∧ wfLen (Value.str [1, 2]) = true ∧
    hasShape .str (Value.str []) = true ∧
    ((serialize .str (Value.str [1, 2])).length = computeSize .str (Value.str [1, 2]) ∧
     deserialize .str (serialize .str (Value.str [1, 2]))
        ((computeSize .str (Value.str [1, 2]) : Nat) : Int) (Value.str [])
       = (Value.str [1, 2], computeSize .str (Value.str [1, 2]))) :=
  ⟨by decide, by decide, by decide,
    c1_codec_roundtrip .str (Value.str [1, 2]) (Value.str [])
      (by decide) (by decide) (by decide)⟩

/-- C2 (corrected: requires `compute_size < 65536`, since the length field is
a `uint16_t`): for a well-shaped value with in-range non-negative ID whose
frame fits the scratch buffer, `sendObject` hands the port the single write
`sendFrameBytes`, of length `8 + L`; bytes 0 and 1 are the marker `0x02 0x42`,
bytes 2–3 the ID little-endian, bytes 4–5 the payload length `L`
little-endian, bytes 6..6+L the serialized payload, and the final two bytes
the CRC-16 of bytes [0, 6+L) little-endian. -/
theorem c2_sendObject_wire {S id : Int} {sh : Shape} {v : Value}
    (hsh : hasShape sh v = true) (hid0 : 0 ≤ id) (hid1 : id < 32768)
    (hL : computeSize sh v < 65536) (hS : (8 + computeSize sh v : Int) ≤ S) :
    sendObject S id sh v = some (sendFrameBytes id sh v) ∧
    (sendFrameBytes id sh v).length = 8 + computeSize sh v ∧
    nth (sendFrameBytes id sh v) 0 = 2 ∧
    nth (sendFrameBytes id sh v) 1 = 66 ∧
    nth (sendFrameBytes id sh v) 2 + 256 * nth (sendFrameBytes id sh v) 3 = id.toNat ∧
    nth (sendFrameBytes id sh v) 4 + 256 * nth (sendFrameBytes id sh v) 5
      = computeSize sh v ∧
    ((sendFrameBytes id sh v).drop 6).take (computeSize sh v) = serialize sh v ∧
    nth (sendFrameBytes id sh v) (6 + computeSize sh v)
        + 256 * nth (sendFrameBytes id sh v) (7 + computeSize sh v)
      = compute_crc16 ((sendFrameBytes id sh v).take (6 + computeSize sh v)) :=
  sendFrame_wire hsh hid0 hid1 hL hS

theorem c2_sendObject_wire_witness :
    hasShape (.scalar 1) (Value.scalar 5) = true ∧ (0 : Int) ≤ 1 ∧ (1 : Int) < 32768 ∧
    computeSize (.scalar 1) (Value.scalar 5) < 65536 ∧
    (8 + computeSize (.scalar 1) (Value.scalar 5) : Int) ≤ 20 ∧
    (sendObject 20 1 (.scalar 1) (Value.scalar 5)
        = some (sendFrameBytes 1 (.scalar 1) (Value.scalar 5)) ∧
     (sendFrameBytes 1 (.scalar 1) (Value.scalar 5)).length
        = 8 + computeSize (.scalar 1) (Value.scalar 5) ∧
     nth (sendFrameBytes 1 (.scalar 1) (Value.scalar 5)) 0 = 2 ∧
     nth (sendFrameBytes 1 (.scalar 1) (Value.scalar 5)) 1 = 66 ∧
     nth (sendFrameBytes 1 (.scalar 1) (Value.scalar 5)) 2
        + 256 * nth (sendFrameBytes 1 (.scalar 1) (Value.scalar 5)) 3 = (1 : Int).toNat ∧
     nth (sendFrameBytes 1 (.scalar 1) (Value.scalar 5)) 4
        + 256 * nth (sendFrameBytes 1 (.scalar 1) (Value.scalar 5)) 5
       = computeSize (.scalar 1) (Value.scalar 5) ∧
     ((sendFrameBytes 1 (.scalar 1) (Value.scalar 5)).drop 6).take
          (computeSize (.scalar 1) (Value.scalar 5))
       = serialize (.scalar 1) (Value.scalar 5) ∧
     nth (sendFrameBytes 1 (.scalar 1) (Value.scalar 5))
          (6 + computeSize (.scalar 1) (Value.scalar 5))
         + 256 * nth (sendFrameBytes 1 (.scalar 1) (Value.scalar 5))
             (7 + computeSize (.scalar 1) (Value.scalar 5))
       = compute_crc16 ((sendFrameBytes 1 (.scalar 1) (Value.scalar 5)).take
           (6 + computeSize (.scalar 1) (Value.scalar 5)))) :=
  ⟨by decide, by decide, by decide, by decide, by decide,
    c2_sendObject_wire (by decide) (by decide) (by decide) (by decide) (by decide)⟩

/-- C5: `available()` returns the wrap-accounted byte count from the read
index to the first position where a buffered `0x02` is immediately followed by
a buffered `0x42`; when no such pair exists it returns `n - 1` if the last
buffered byte is `0x02` and `n` otherwise, and it returns `0` on an empty
buffer (`availableSpec` renders exactly this description). -/
theorem c5_available_spec {C : Int} {st : CTState} (hC : 0 < C) (hInv : Inv C st) :
    available C st = availableSpec C st ∧ (st.buffer_size = 0 → available C st = 0) := by
  refine ⟨available_eq_spec hC hInv, fun h0 => ?_⟩
  rw [available_eq_spec hC hInv]
  unfold availableSpec
  rw [if_pos h0]

theorem c5_available_spec_witness :
    (0 : Int) < 4 ∧ Inv 4 { buffer := fun _ => 0, buffer_index := 0, buffer_size := 0 } ∧
    (available 4 { buffer := fun _ => 0, buffer_index := 0, buffer_size := 0 }
        = availableSpec 4 { buffer := fun _ => 0, buffer_index := 0, buffer_size := 0 } ∧
     (CTState.buffer_size { buffer := fun _ => 0, buffer_index := 0, buffer_size := 0 } = 0 →
       available 4 { buffer := fun _ => 0, buffer_index := 0, buffer_size := 0 } = 0)) :=
  ⟨by norm_num, ⟨by norm_num, by norm_num, by norm_num, by norm_num, fun _ => rfl⟩,
    c5_available_spec (by norm_num)
      ⟨by norm_num, by norm_num, by norm_num, by norm_num, fun _ => rfl⟩⟩

/-- C7: every state reachable from the freshly constructed `CrossTalker` by
the public operations (`processSerialData`, `read`, `skip`, `readObject`,
`skipObject`, `clearBuffer`) satisfies the ring invariant:
`0 ≤ buffer_size_ ≤ C`, `0 ≤ buffer_index_ < C`, and an empty buffer has
`buffer_index_ = 0`. -/
theorem c7_reachable_invariant {C : Int} {st : CTState} (hC : 0 < C)
    (hst : Reachable C st) :
    0 ≤ st.buffer_size ∧ st.buffer_size ≤ C ∧ 0 ≤ st.buffer_index ∧
      st.buffer_index < C ∧ (st.buffer_size = 0 → st.buffer_index = 0) :=
  reachable_inv hC hst

theorem c7_reachable_invariant_witness :
    (0 : Int) < 4 ∧ Reachable 4 { buffer := fun _ => 0, buffer_index := 0, buffer_size := 0 } ∧
    (0 ≤ CTState.buffer_size { buffer := fun _ => 0, buffer_index := 0, buffer_size := 0 } ∧
     CTState.buffer_size { buffer := fun _ => 0, buffer_index := 0, buffer_size := 0 } ≤ 4 ∧
     0 ≤ CTState.buffer_index { buffer := fun _ => 0, buffer_index := 0, buffer_size := 0 } ∧
     CTState.buffer_index { buffer := fun _ => 0, buffer_index := 0, buffer_size := 0 } < 4 ∧
     (CTState.buffer_size { buffer := fun _ => 0, buffer_index := 0, buffer_size := 0 } = 0 →
       CTState.buffer_index { buffer := fun _ => 0, buffer_index := 0, buffer_size := 0 } = 0)) :=
  ⟨by norm_num, Reachable.init (fun _ => 0),
    c7_reachable_invariant (by norm_num) (Reachable.init (fun _ => 0))⟩

/-- C9: `compute_crc16` equals the spec 4.2 fold — state starts at `0xFFFF`
and each byte `b` updates `x = ((crc >> 8) ^ b) & 0xFF`, `x = x ^ (x >> 4)`,
`crc = ((crc << 8) ^ (x << 12) ^ (x << 5) ^ x) & 0xFFFF`: the C promotions and
`uint8_t`/`uint16_t` truncations realize exactly the spec's masks. -/
theorem c9_crc16_spec_fold (data : List Nat) : compute_crc16 data = compute_crc16_spec data :=
  compute_crc16_eq_spec data

/-- C10: on the wrap path (`r + L + 8 > C`) the straddling `readObject` copies
the whole `8 + L`-byte frame to scratch indices `0, 1, …, 7 + L` without ever
comparing against the scratch capacity `S`; every scratch write is in bounds
iff `8 + L ≤ S`. -/
theorem c10_scratch_bounds {C r S : Int} {L : Nat} (hr0 : 0 ≤ r) (hrC : r < C)
    (hwrap : r + (L : Int) + 8 > C) :
    scratchWriteIndices C r L = (List.range (8 + L)).map (fun (i : Nat) => (i : Int)) ∧
    ((∀ j ∈ scratchWriteIndices C r L, j < S) ↔ ((8 + L : Nat) : Int) ≤ S) :=
  ⟨scratchWriteIndices_eq hr0 hrC hwrap, scratch_inbounds_iff hr0 hrC hwrap⟩

theorem c10_scratch_bounds_witness :
    (0 : Int) ≤ 6 ∧ (6 : Int) < 8 ∧ (6 + ((4 : Nat) : Int) + 8 > 8) ∧
    (scratchWriteIndices 8 6 4 = (List.range (8 + 4)).map (fun (i : Nat) => (i : Int)) ∧
     ((∀ j ∈ scratchWriteIndices 8 6 4, j < 12) ↔ ((8 + 4 : Nat) : Int) ≤ 12)) :=
  ⟨by norm_num, by norm_num, by norm_num,
    c10_scratch_bounds (by norm_num) (by norm_num) (by norm_num)⟩

/-- C3: whenever `readObject` returns `CrcError` or `ObjectSizeMismatch` it
has already executed `_markRead(8 + L)` on the ingested state, so the full
frame is consumed and the error is observed for that frame exactly once; and
`ObjectSizeMismatch` is returned exactly when the frame passed the
object/metadata/ID/length guards, the CRC matched, and the decoder consumed a
byte count different from the header length `L`. -/
theorem c3_error_consumes_frame (C id : Int) (sh : Shape) (st : CTState)
    (pending : List Nat) (obj : Value) :
    (((readObject C id sh st pending obj).1 = .CrcError ∨
      (readObject C id sh st pending obj).1 = .ObjectSizeMismatch) →
      (readObject C id sh st pending obj).2.2.1
        = markRead C (roIngested C st pending) (8 + (roSize C st pending : Int))) ∧
    ((readObject C id sh st pending obj).1 = .ObjectSizeMismatch
      ↔ (hasObject C st = true ∧
         6 ≤ (roIngested C st pending).buffer_size ∧
         getObjectId C (roIngested C st pending) = id ∧
         (roSize C st pending : Int) + 8 ≤ (roIngested C st pending).buffer_size ∧
         roCrcOk C st pending ∧
         roConsumed C sh st pending obj ≠ roSize C st pending)) :=
  ⟨fun h => readObject_error_consumes h, readObject_size_mismatch_iff⟩

/-- C4: whenever `readObject` returns `NoObjectAvailable`, `NotEnoughData` or
`ObjectIdMismatch`, the read index is unchanged, the buffer has only grown
(the internal ingestion pass may append newly arrived bytes), and every
previously buffered byte — in particular the whole frame at the head — is
untouched, so a later `readObject` with the matching type can still succeed on
the same frame. -/
theorem c4_error_retains_frame {C id : Int} {sh : Shape} {st : CTState}
    {pending : List Nat} {obj : Value} (hC : 0 < C) (hInv : Inv C st)
    (hres : (readObject C id sh st pending obj).1 = .NoObjectAvailable ∨
      (readObject C id sh st pending obj).1 = .NotEnoughData ∨
      (readObject C id sh st pending obj).1 = .ObjectIdMismatch) :
    (readObject C id sh st pending obj).2.2.1.buffer_index = st.buffer_index ∧
    st.buffer_size ≤ (readObject C id sh st pending obj).2.2.1.buffer_size ∧
    ∀ i : Int, 0 ≤ i → i < st.buffer_size →
      (readObject C id sh st pending obj).2.2.1.buffer ((st.buffer_index + i) % C)
        = st.buffer ((st.buffer_index + i) % C) :=
  readObject_retains_frame hC hInv hres

theorem c4_error_retains_frame_witness :
    (0 : Int) < 4 ∧
    Inv 4 { buffer := fun _ => 0, buffer_index := 0, buffer_size := 0 } ∧
    ((readObject 4 0 (.scalar 1) { buffer := fun _ => 0, buffer_index := 0, buffer_size := 0 }
        [] (Value.scalar 0)).1 = .NoObjectAvailable ∨
     (readObject 4 0 (.scalar 1) { buffer := fun _ => 0, buffer_index := 0, buffer_size := 0 }
        [] (Value.scalar 0)).1 = .NotEnoughData ∨
     (readObject 4 0 (.scalar 1) { buffer := fun _ => 0, buffer_index := 0, buffer_size := 0 }
        [] (Value.scalar 0)).1 = .ObjectIdMismatch) ∧
    ((readObject 4 0 (.scalar 1) { buffer := fun _ => 0, buffer_index := 0, buffer_size := 0 }
        [] (Value.scalar 0)).2.2.1.buffer_index
       = CTState.buffer_index { buffer := fun _ => 0, buffer_index := 0, buffer_size := 0 } ∧
     CTState.buffer_size { buffer := fun _ => 0, buffer_index := 0, buffer_size := 0 }
       ≤ (readObject 4 0 (.scalar 1)
            { buffer := fun _ => 0, buffer_index := 0, buffer_size := 0 }
            [] (Value.scalar 0)).2.2.1.buffer_size ∧
     ∀ i : Int, 0 ≤ i →
       i < CTState.buffer_size { buffer := fun _ => 0, buffer_index := 0, buffer_size := 0 } →
       (readObject 4 0 (.scalar 1) { buffer := fun _ => 0, buffer_index := 0, buffer_size := 0 }
          [] (Value.scalar 0)).2.2.1.buffer
           ((CTState.buffer_index { buffer := fun _ => 0, buffer_index := 0, buffer_size := 0 }
              + i) % 4)
         = CTState.buffer { buffer := fun _ => 0, buffer_index := 0, buffer_size := 0 }
             ((CTState.buffer_index { buffer := fun _ => 0, buffer_index := 0, buffer_size := 0 }
                + i) % 4)) :=
  ⟨by norm_num, ⟨by norm_num, by norm_num, by norm_num, by norm_num, fun _ => rfl⟩,
    Or.inl (by decide),
    c4_error_retains_frame (by norm_num)
      ⟨by norm_num, by norm_num, by norm_num, by norm_num, fun _ => rfl⟩
      (Or.inl (by decide))⟩

/-- C8: `processSerialData(true)` consumes at most `C` port bytes when the
buffer is empty and at most `C - 1` otherwise, and afterwards
`buffer_size_ = min(old + consumed, C)` (the overflow beyond `C` is dropped by
advancing the read index), so `buffer_size_ ≤ C`; `processSerialData(false)`
consumes at most `C - buffer_size_` bytes, leaves the read index unchanged,
grows the buffer by exactly the consumed count, and never displaces a
previously buffered byte. -/
theorem c8_ingestion_caps {C : Int} {st : CTState} {pending : List Nat}
    (hC : 0 < C) (hInv : Inv C st) :
    ((pending.length : Int) - ((processSerialData C st pending true).2.length : Int)
        ≤ (if st.buffer_size = 0 then C else C - 1)) ∧
    (processSerialData C st pending true).1.buffer_size
      = min (st.buffer_size + ((pending.length : Int)
          - ((processSerialData C st pending true).2.length : Int))) C ∧
    (processSerialData C st pending true).1.buffer_size ≤ C ∧
    ((pending.length : Int) - ((processSerialData C st pending false).2.length : Int)
        ≤ C - st.buffer_size) ∧
    (processSerialData C st pending false).1.buffer_index = st.buffer_index ∧
    (processSerialData C st pending false).1.buffer_size
      = st.buffer_size + ((pending.length : Int)
          - ((processSerialData C st pending false).2.length : Int)) ∧
    (∀ i : Int, 0 ≤ i → i < st.buffer_size →
      (processSerialData C st pending false).1.buffer ((st.buffer_index + i) % C)
        = st.buffer ((st.buffer_index + i) % C)) := by
  obtain ⟨hn0, hnC, hr0, hrC, hz⟩ := hInv
  have hpt : processSerialData C st pending true
      = processSerialDataLoop C st pending (if st.buffer_size = 0 then C else C - 1) := rfl
  have hpf : processSerialData C st pending false
      = if st.buffer_size < C then processSerialDataLoop C st pending (C - st.buffer_size)
        else (st, pending) := rfl
  have htrue : ((pending.length : Int)
        - ((processSerialData C st pending true).2.length : Int)
        ≤ (if st.buffer_size = 0 then C else C - 1)) ∧
      (processSerialData C st pending true).1.buffer_size
        = min (st.buffer_size + ((pending.length : Int)
            - ((processSerialData C st pending true).2.length : Int))) C ∧
      (processSerialData C st pending true).1.buffer_size ≤ C := by
    rw [hpt]
    by_cases h0 : st.buffer_size = 0
    · rw [if_pos h0]
      have hs := processSerialDataLoop_spec C pending.length st pending C le_rfl hC
        ⟨hn0, hnC, hr0, hrC, hz⟩ (by omega)
      exact ⟨hs.2.2.1, hs.2.2.2.1, hs.1.2.1⟩
    · rw [if_neg h0]
      have hs := processSerialDataLoop_spec C pending.length st pending (C - 1) le_rfl hC
        ⟨hn0, hnC, hr0, hrC, hz⟩ (by omega)
      exact ⟨hs.2.2.1, hs.2.2.2.1, hs.1.2.1⟩
  have hfalse : ((pending.length : Int)
        - ((processSerialData C st pending false).2.length : Int) ≤ C - st.buffer_size) ∧
      (processSerialData C st pending false).1.buffer_index = st.buffer_index ∧
      (processSerialData C st pending false).1.buffer_size
        = st.buffer_size + ((pending.length : Int)
            - ((processSerialData C st pending false).2.length : Int)) ∧
      (∀ i : Int, 0 ≤ i → i < st.buffer_size →
        (processSerialData C st pending false).1.buffer ((st.buffer_index + i) % C)
          = st.buffer ((st.buffer_index + i) % C)) := by
    rw [hpf]
    by_cases hlt : st.buffer_size < C
    · rw [if_pos hlt]
      have hs := processSerialDataLoop_spec C pending.length st pending
        (C - st.buffer_size) le_rfl hC ⟨hn0, hnC, hr0, hrC, hz⟩ (by omega)
      have hn := processSerialDataLoop_noOverwrite C pending.length st pending
        (C - st.buffer_size) le_rfl hC ⟨hn0, hnC, hr0, hrC, hz⟩ (by omega) le_rfl
      exact ⟨hs.2.2.1, hn.1, hn.2.1, hn.2.2⟩
    · rw [if_neg hlt]
      dsimp only
      exact ⟨by omega, rfl, by omega, fun i _ _ => rfl⟩
  exact ⟨htrue.1, htrue.2.1, htrue.2.2, hfalse.1, hfalse.2.1, hfalse.2.2.1, hfalse.2.2.2⟩

theorem c8_ingestion_caps_witness :
    (0 : Int) < 4 ∧
    Inv 4 { buffer := fun _ => 0, buffer_index := 0, buffer_size := 0 } ∧
    ((([1, 2].length : Int) - ((processSerialData 4
          { buffer := fun _ => 0, buffer_index := 0, buffer_size := 0 } [1, 2] true).2.length
          : Int)
        ≤ (if CTState.buffer_size { buffer := fun _ => 0, buffer_index := 0, buffer_size := 0 }
              = 0 then 4 else 4 - 1)) ∧
     (processSerialData 4 { buffer := fun _ => 0, buffer_index := 0, buffer_size := 0 }
          [1, 2] true).1.buffer_size
       = min (CTState.buffer_size { buffer := fun _ => 0, buffer_index := 0, buffer_size := 0 }
           + (([1, 2].length : Int) - ((processSerialData 4
               { buffer := fun _ => 0, buffer_index := 0, buffer_size := 0 }
               [1, 2] true).2.length : Int))) 4 ∧
     (processSerialData 4 { buffer := fun _ => 0, buffer_index := 0, buffer_size := 0 }
          [1, 2] true).1.buffer_size ≤ 4 ∧
     (([1, 2].length : Int) - ((processSerialData 4
          { buffer := fun _ => 0, buffer_index := 0, buffer_size := 0 } [1, 2] false).2.length
          : Int)
        ≤ 4 - CTState.buffer_size { buffer := fun _ => 0, buffer_index := 0, buffer_size := 0 }) ∧
     (processSerialData 4 { buffer := fun _ => 0, buffer_index := 0, buffer_size := 0 }
          [1, 2] false).1.buffer_index
       = CTState.buffer_index { buffer := fun _ => 0, buffer_index := 0, buffer_size := 0 } ∧
     (processSerialData 4 { buffer := fun _ => 0, buffer_index := 0, buffer_size := 0 }
          [1, 2] false).1.buffer_size
       = CTState.buffer_size { buffer := fun _ => 0, buffer_index := 0, buffer_size := 0 }
           + (([1, 2].length : Int) - ((processSerialData 4
               { buffer := fun _ => 0, buffer_index := 0, buffer_size := 0 }
               [1, 2] false).2.length : Int)) ∧
     (∀ i : Int, 0 ≤ i →
       i < CTState.buffer_size { buffer := fun _ => 0, buffer_index := 0, buffer_size := 0 } →
       (processSerialData 4 { buffer := fun _ => 0, buffer_index := 0, buffer_size := 0 }
            [1, 2] false).1.buffer
           ((CTState.buffer_index { buffer := fun _ => 0, buffer_index := 0, buffer_size := 0 }
              + i) % 4)
         = CTState.buffer { buffer := fun _ => 0, buffer_index := 0, buffer_size := 0 }
             ((CTState.buffer_index { buffer := fun _ => 0, buffer_index := 0, buffer_size := 0 }
                + i) % 4))) :=
  ⟨by norm_num, ⟨by norm_num, by norm_num, by norm_num, by norm_num, fun _ => rfl⟩,
    c8_ingestion_caps (by norm_num)
      ⟨by norm_num, by norm_num, by norm_num, by norm_num, fun _ => rfl⟩⟩

/-- C6: in every reachable buffer state, an object frame at the head
(`hasObject()` true: at least 4 buffered bytes with the marker pair
`0x02 0x42` at the read index and its wrapped successor) means `available()`
returns `0`. -/
theorem c6_hasObject_no_generic {C : Int} {st : CTState} (hC : 0 < C)
    (hst : Reachable C st) (h : hasObject C st = true) : available C st = 0 :=
  available_zero_of_hasObject hC (reachable_inv hC hst) h

theorem c6_hasObject_no_generic_witness :
    (0 : Int) < 4 ∧
    Reachable 4 ((processSerialData 4
        { buffer := fun _ => 0, buffer_index := 0, buffer_size := 0 } [2, 66, 0, 0] true).1) ∧
    hasObject 4 ((processSerialData 4
        { buffer := fun _ => 0, buffer_index := 0, buffer_size := 0 } [2, 66, 0, 0] true).1)
      = true ∧
    available 4 ((processSerialData 4
        { buffer := fun _ => 0, buffer_index := 0, buffer_size := 0 } [2, 66, 0, 0] true).1)
      = 0 := by
  have hobj : hasObject 4 ((processSerialData 4
      { buffer := fun _ => 0, buffer_index := 0, buffer_size := 0 } [2, 66, 0, 0] true).1)
      = true := by
    have h1 : processSerialData 4
        { buffer := fun _ => 0, buffer_index := 0, buffer_size := 0 } [2, 66, 0, 0] true
        = processSerialDataLoop 4
            { buffer := fun _ => 0, buffer_index := 0, buffer_size := 0 } [2, 66, 0, 0] 4 := rfl
    have hc : psCount 4 { buffer := fun _ => 0, buffer_index := 0, buffer_size := 0 }
        (([2, 66, 0, 0].length : Nat) : Int) 4 = 4 := by
      norm_num [psCount, psIndex, wrap1]
    have hstep : psStep 4 { buffer := fun _ => 0, buffer_index := 0, buffer_size := 0 }
        [2, 66, 0, 0] 4
        = { buffer := writeRun (fun _ => (0 : Nat)) 0 [2, 66, 0, 0],
            buffer_index := 0, buffer_size := 4 } := by
      unfold psStep
      rw [hc]
      norm_num [psIndex, wrap1]
      rfl
    rw [h1, processSerialDataLoop_step (by norm_num) (by norm_num) (by rw [hc]; norm_num)]
    rw [hc]
    norm_num
    rw [processSerialDataLoop_stop_nil (by norm_num)]
    dsimp only
    rw [hstep]
    unfold hasObject
    norm_num [wrap1, writeRun]
  exact ⟨by norm_num,
    Reachable.ingest [2, 66, 0, 0] true (Reachable.init (fun _ => 0)), hobj,
    c6_hasObject_no_generic (by norm_num)
      (Reachable.ingest [2, 66, 0, 0] true (Reachable.init (fun _ => 0))) hobj⟩

end Crosstalk
